import Mathlib

/-!
# Map codec of `msgpack` (`map.go`)

A shallow embedding of the map length prefix, the text-to-text map codec, the
typed map decoder with its array-as-map path, and the record decoder, together
with the properties proved about them.

Conventions of the embedding:

* a Go `byte` is `Fin 256`; a Go `int` is an `Int` (64-bit platform, so that
  every `uint32` converts to `int` without wrapping);
* a Go function returning `(x, err)` returns both components, `err` being an
  `Option Error` (`none` is Go's `nil` error);
* the decoder's stream is the list of bytes not yet read, the encoder's stream
  is the list of bytes written so far together with a sticky write failure;
* a Go `string` is a sequence of bytes;
* a Go map is an `Option` of a finite map, `none` being the `nil` map.
-/

namespace Msgpack

/-! ## Bytes, integers, errors -/

abbrev Byte := Fin 256

/-- Go conversion `byte(n)` of an unsigned integer: the low eight bits. -/
def byteOfNat (n : Nat) : Byte := ⟨n % 256, Nat.mod_lt n (by decide)⟩

/-- Go conversion `byte(l)` of an `int`: the low eight bits of the two's complement. -/
def byteOfInt (l : Int) : Byte := byteOfNat (l % 256).toNat

/-- Go conversion `uint64(l)` of an `int`. -/
def uint64OfInt (l : Int) : Nat := (l % 2 ^ 64).toNat

/-- Go strings are immutable byte sequences. -/
abbrev GoString := List Byte

/-- Go `error` values. `ErrArrMap` is the package-level sentinel compared by identity;
`text` is an error built by `errors.New` or `fmt.Errorf`; `EOF` and `ErrUnexpectedEOF`
are the stream errors of package `io`. `panic` is not an error value: it marks a call
that did not return because the Go runtime or package `reflect` panicked; the state
returned with it is the state at the panic. -/
inductive Error
  | EOF
  | ErrUnexpectedEOF
  | ErrArrMap
  | text (msg : String)
  | panic
  deriving DecidableEq, Repr

/-- Modelled from the spec: the tag bytes of package `codes` (wire tag layout of the
format): the nil byte, the small/16-bit/32-bit map tags and the small/16-bit/32-bit
sequence tags. -/
def codes.Nil : Byte := 0xc0

/-- Modelled from the spec: base byte of the small-map form. -/
def codes.FixedMapLow : Byte := 0x80

/-- Modelled from the spec: last byte of the small-map form. -/
def codes.FixedMapHigh : Byte := 0x8f

/-- Modelled from the spec: count mask of the small-map form. -/
def codes.FixedMapMask : Byte := 0x0f

/-- Modelled from the spec: the map16 byte. -/
def codes.Map16 : Byte := 0xde

/-- Modelled from the spec: the map32 byte. -/
def codes.Map32 : Byte := 0xdf

/-- Modelled from the spec: base byte of the small-sequence form. -/
def codes.FixedArrayLow : Byte := 0x90

/-- Modelled from the spec: last byte of the small-sequence form. -/
def codes.FixedArrayHigh : Byte := 0x9f

/-- Modelled from the spec: count mask of the small-sequence form. -/
def codes.FixedArrayMask : Byte := 0x0f

/-- Modelled from the spec: the array16 byte. -/
def codes.Array16 : Byte := 0xdc

/-- Modelled from the spec: the array32 byte. -/
def codes.Array32 : Byte := 0xdd

/-! ## Encoder -/

/-- The encoder: `w` is what the stream has accepted, `werr` a failure of the
stream (once set, every write fails with it and writes nothing). -/
structure Encoder where
  w : List Byte
  werr : Option Error
  deriving DecidableEq, Repr

/-- Modelled from the spec: the byte-level write primitive (`e.write`), appending
to the stream unless the stream has failed. -/
def Encoder.write (e : Encoder) (b : List Byte) : Option Error × Encoder :=
  match e.werr with
  | some err => (some err, e)
  | none => (none, { e with w := e.w ++ b })

/-- Modelled from the spec: `e.w.WriteByte(c)`. -/
def Encoder.WriteByte (e : Encoder) (c : Byte) : Option Error × Encoder :=
  e.write [c]

/-- Modelled from the spec: `e.write2(code, n)`, the tag followed by the 2-byte
big-endian count. -/
def Encoder.write2 (e : Encoder) (code : Byte) (n : Nat) : Option Error × Encoder :=
  e.write [code, byteOfNat (n >>> 8), byteOfNat n]

/-- Modelled from the spec: `e.write4(code, n)`, the tag followed by the 4-byte
big-endian count. -/
def Encoder.write4 (e : Encoder) (code : Byte) (n : Nat) : Option Error × Encoder :=
  e.write [code, byteOfNat (n >>> 24), byteOfNat (n >>> 16), byteOfNat (n >>> 8), byteOfNat n]

/-- `func (e *Encoder) encodeMapLen(l int) error`. -/
def Encoder.encodeMapLen (e : Encoder) (l : Int) : Option Error × Encoder :=
  if l < 16 then
    match e.WriteByte (codes.FixedMapLow ||| byteOfInt l) with
    | (some err, e1) => (some err, e1)
    | (none, e1) => (none, e1)
  else if l < 65536 then
    match e.write2 codes.Map16 (uint64OfInt l) with
    | (some err, e1) => (some err, e1)
    | (none, e1) => (none, e1)
  else
    match e.write4 codes.Map32 (uint64OfInt l) with
    | (some err, e1) => (some err, e1)
    | (none, e1) => (none, e1)

/-! ## Decoder: the length prefix -/

/-- The decoder: `r` is the input not yet read. -/
structure Decoder where
  r : List Byte
  deriving DecidableEq, Repr

/-- Modelled from the spec: `d.r.ReadByte()`; at the end of the input it fails with `io.EOF`. -/
def Decoder.ReadByte (d : Decoder) : Byte × Option Error × Decoder :=
  match d.r with
  | [] => (0, some Error.EOF, d)
  | c :: rest => (c, none, ⟨rest⟩)

/-- Modelled from the spec: `d.uint16()`, the 2-byte big-endian read. A short read
consumes what is left and fails (`io.EOF` when nothing was left, `io.ErrUnexpectedEOF`
otherwise) with value `0`. -/
def Decoder.uint16 (d : Decoder) : Nat × Option Error × Decoder :=
  match d.r with
  | b0 :: b1 :: rest => (b0.val <<< 8 ||| b1.val, none, ⟨rest⟩)
  | [] => (0, some Error.EOF, ⟨[]⟩)
  | _ => (0, some Error.ErrUnexpectedEOF, ⟨[]⟩)

/-- Modelled from the spec: `d.uint32()`, the 4-byte big-endian read, failing on a
short read like `uint16`. -/
def Decoder.uint32 (d : Decoder) : Nat × Option Error × Decoder :=
  match d.r with
  | b0 :: b1 :: b2 :: b3 :: rest =>
      (b0.val <<< 24 ||| b1.val <<< 16 ||| b2.val <<< 8 ||| b3.val, none, ⟨rest⟩)
  | [] => (0, some Error.EOF, ⟨[]⟩)
  | _ => (0, some Error.ErrUnexpectedEOF, ⟨[]⟩)

/-- Go `fmt` verb `%x` applied to a byte: lower-case hexadecimal, no padding. -/
def hex (c : Byte) : String := String.mk (Nat.toDigits 16 c.val)

/-- The error `fmt.Errorf("msgpack: invalid code %x decoding map length", c)`. -/
def invalidCode (c : Byte) : Error :=
  Error.text ("msgpack: invalid code " ++ hex c ++ " decoding map length")

/-- `func (d *Decoder) DecodeMapLen() (int, error)`. -/
def Decoder.DecodeMapLen (d : Decoder) : Int × Option Error × Decoder :=
  match d.ReadByte with
  | (_, some err, d1) => (0, some err, d1)
  | (c, none, d1) =>
    if c = codes.Nil then (-1, none, d1)
    else if c = codes.FixedArrayLow then (0, none, d1)
    else if c > codes.FixedArrayLow ∧ c ≤ codes.FixedArrayHigh then
      (((c &&& codes.FixedArrayMask).val : Int), some Error.ErrArrMap, d1)
    else if c = codes.Array16 then
      match d1.uint16 with
      | (n, _, d2) => ((n : Int), some Error.ErrArrMap, d2)
    else if c = codes.Array32 then
      match d1.uint32 with
      | (n, _, d2) => ((n : Int), some Error.ErrArrMap, d2)
    else if c ≥ codes.FixedMapLow ∧ c ≤ codes.FixedMapHigh then
      (((c &&& codes.FixedMapMask).val : Int), none, d1)
    else if c = codes.Map16 then
      match d1.uint16 with
      | (n, err, d2) => ((n : Int), err, d2)
    else if c = codes.Map32 then
      match d1.uint32 with
      | (n, err, d2) => ((n : Int), err, d2)
    else (0, some (invalidCode c), d1)

/-! ## Go maps and the text-to-text map codec -/

/-- A Go map value: `none` is the `nil` map, `some f` an allocated map with entries `f`. -/
abbrev GoMap (K V : Type) := Option (Finmap (fun _ : K => V))

/-- The entries of a Go map; the `nil` map has none. -/
def GoMap.entries {K V : Type} (m : GoMap K V) : Finmap (fun _ : K => V) :=
  match m with
  | none => ∅
  | some f => f

/-- Go builtin `len(m)` of a map. -/
def GoMap.len {K V : Type} (m : GoMap K V) : Int :=
  (Multiset.card m.entries.entries : Nat)

/-- An order in which `range m` may visit the entries of `m`: each entry exactly once. -/
def GoMap.IsRangeOrder {K V : Type} (m : GoMap K V) (order : List (Sigma fun _ : K => V)) : Prop :=
  (order : Multiset (Sigma fun _ : K => V)) = m.entries.entries

instance {K V : Type} [DecidableEq K] [DecidableEq V] (m : GoMap K V)
    (order : List (Sigma fun _ : K => V)) : Decidable (m.IsRangeOrder order) := by
  unfold GoMap.IsRangeOrder
  infer_instance

/-- The body of `for mk, mv := range m` in `encodeMapStringString`, run over the
entries in the order the runtime visits them. -/
def Encoder.encodeMapStringStringLoop
    (EncodeString : Encoder → GoString → Option Error × Encoder) :
    List (Sigma fun _ : GoString => GoString) → Encoder → Option Error × Encoder
  | [], e => (none, e)
  | ⟨key, val⟩ :: rest, e =>
    match EncodeString e key with
    | (some err, e1) => (some err, e1)
    | (none, e1) =>
      match EncodeString e1 val with
      | (some err, e2) => (some err, e2)
      | (none, e2) => Encoder.encodeMapStringStringLoop EncodeString rest e2

/-- `func (e *Encoder) encodeMapStringString(m map[string]string) error`; `order` is
the order in which `range m` yields the entries. -/
def Encoder.encodeMapStringString
    (EncodeString : Encoder → GoString → Option Error × Encoder)
    (e : Encoder) (m : GoMap GoString GoString)
    (order : List (Sigma fun _ : GoString => GoString)) : Option Error × Encoder :=
  match e.encodeMapLen m.len with
  | (some err, e1) => (some err, e1)
  | (none, e1) => Encoder.encodeMapStringStringLoop EncodeString order e1

/-- The loop `for i := 0; i < n; i++` of `decodeIntoMapStringString`; the first
argument is the number of iterations still to run. -/
def Decoder.decodeIntoMapStringStringLoop
    (DecodeString : Decoder → GoString × Option Error × Decoder) :
    Nat → Finmap (fun _ : GoString => GoString) → Decoder →
      Option Error × Finmap (fun _ : GoString => GoString) × Decoder
  | 0, m, d => (none, m, d)
  | k + 1, m, d =>
    match DecodeString d with
    | (_, some err, d1) => (some err, m, d1)
    | (key, none, d1) =>
      match DecodeString d1 with
      | (_, some err, d2) => (some err, m, d2)
      | (val, none, d2) =>
        Decoder.decodeIntoMapStringStringLoop DecodeString k (m.insert key val) d2

/-- `func (d *Decoder) decodeIntoMapStringString(mp *map[string]string) error`; the
map behind `mp` is passed in and its final value returned. -/
def Decoder.decodeIntoMapStringString
    (DecodeString : Decoder → GoString × Option Error × Decoder)
    (d : Decoder) (mp : GoMap GoString GoString) :
    Option Error × GoMap GoString GoString × Decoder :=
  match d.DecodeMapLen with
  | (_, some err, d1) => (some err, mp, d1)
  | (n, none, d1) =>
    if n = -1 then (none, mp, d1)
    else
      let m : Finmap (fun _ : GoString => GoString) :=
        match mp with
        | none => ∅
        | some f => f
      match Decoder.decodeIntoMapStringStringLoop DecodeString n.toNat m d1 with
      | (err, m1, d2) => (err, some m1, d2)

/-! ## Dynamic values, reflection, the typed map decoder -/

/-- Dynamically typed Go values that occur as map keys and elements. -/
inductive Value
  | null
  | bool (b : Bool)
  | int (i : Int)
  | str (s : GoString)
  | bin (b : List Byte)
  deriving DecidableEq, Repr

/-- Dynamic values that Go can hash as map keys; storing an entry under a byte-slice
key panics (`m[mk] = mv` and `reflect.Value.SetMapIndex` alike). -/
def hashable (x : Value) : Bool :=
  match x with
  | Value.bin _ => false
  | _ => true

/-- Kinds of package `reflect`. -/
inductive Kind
  | Invalid | Bool | Int | Int8 | Int16 | Int32 | Int64
  | Uint | Uint8 | Uint16 | Uint32 | Uint64 | Uintptr
  | Float32 | Float64 | Complex64 | Complex128
  | Array | Chan | Func | Interface | Map | Ptr | Slice | String | Struct | UnsafePointer
  deriving DecidableEq, Repr

/-- `func (k Kind) String() string` of package `reflect`. -/
def kindString (k : Kind) : String :=
  match k with
  | .Invalid => "invalid" | .Bool => "bool" | .Int => "int" | .Int8 => "int8"
  | .Int16 => "int16" | .Int32 => "int32" | .Int64 => "int64"
  | .Uint => "uint" | .Uint8 => "uint8" | .Uint16 => "uint16" | .Uint32 => "uint32"
  | .Uint64 => "uint64" | .Uintptr => "uintptr"
  | .Float32 => "float32" | .Float64 => "float64"
  | .Complex64 => "complex64" | .Complex128 => "complex128"
  | .Array => "array" | .Chan => "chan" | .Func => "func" | .Interface => "interface"
  | .Map => "map" | .Ptr => "ptr" | .Slice => "slice" | .String => "string"
  | .Struct => "struct" | .UnsafePointer => "unsafe.Pointer"

/-- The integer kinds of package `reflect` (signed and unsigned). -/
def isIntegerKind (k : Kind) : Bool :=
  match k with
  | .Int | .Int8 | .Int16 | .Int32 | .Int64 => true
  | .Uint | .Uint8 | .Uint16 | .Uint32 | .Uint64 | .Uintptr => true
  | _ => false

/-- A `reflect.Type` as far as the decoder looks at it: its name and its kind. The
predeclared type `int` has the name `int`; a defined type such as `type MyInt int` has
its own name and the kind `Int`. -/
structure Typ where
  Name : String
  Kind : Kind
  deriving DecidableEq, Repr

/-- The predeclared type `int`, the type of `reflect.ValueOf(i + 1)`. -/
def intType : Typ := ⟨"int", Kind.Int⟩

/-- A settable `reflect.Value` of map type: `typ.Key()`, `typ.Elem()` and the map it
holds. -/
structure MapValue where
  keyType : Typ
  valueType : Typ
  m : GoMap Value Value
  deriving DecidableEq

/-- The error `errors.New("array map's must be map[int]xx" + keyType.Kind().String())`. -/
def keyTypeError (k : Kind) : Error :=
  Error.text ("array map\x27s must be map[int]xx" ++ kindString k)

/-- The array-as-map loop of `mapValue`: `k` iterations still to run, `i` the loop
variable; element `i` is stored under key `i + 1`. The key `reflect.ValueOf(i + 1)`
has type `int`, and `v.SetMapIndex(mk, mv)` panics unless it is assignable to the key
type of the map: the loop is reached with key types of kind `Int` only, and among
these `int` is assignable to the type `int` alone. -/
def Decoder.mapValueArrayLoop
    (DecodeValue : Typ → Decoder → Value × Option Error × Decoder) (keyType valueType : Typ) :
    Nat → Int → Finmap (fun _ : Value => Value) → Decoder →
      Option Error × Finmap (fun _ : Value => Value) × Decoder
  | 0, _, m, d => (none, m, d)
  | k + 1, i, m, d =>
    let key := Value.int (i + 1)
    match DecodeValue valueType d with
    | (_, some err, d1) => (some err, m, d1)
    | (val, none, d1) =>
      if keyType = intType then
        Decoder.mapValueArrayLoop DecodeValue keyType valueType k (i + 1) (m.insert key val) d1
      else (some Error.panic, m, d1)

/-- The plain-map loop of `mapValue`: `k` iterations still to run. The key has the key
type of the map; `v.SetMapIndex(mk, mv)` panics when the key (held by an interface-typed
key type) is not hashable. -/
def Decoder.mapValueLoop
    (DecodeValue : Typ → Decoder → Value × Option Error × Decoder) (keyType valueType : Typ) :
    Nat → Finmap (fun _ : Value => Value) → Decoder →
      Option Error × Finmap (fun _ : Value => Value) × Decoder
  | 0, m, d => (none, m, d)
  | k + 1, m, d =>
    match DecodeValue keyType d with
    | (_, some err, d1) => (some err, m, d1)
    | (key, none, d1) =>
      match DecodeValue valueType d1 with
      | (_, some err, d2) => (some err, m, d2)
      | (val, none, d2) =>
        if hashable key then
          Decoder.mapValueLoop DecodeValue keyType valueType k (m.insert key val) d2
        else (some Error.panic, m, d2)

/-- `func (d *Decoder) mapValue(v reflect.Value) error`; the value behind `v` is
passed in and its final state returned. -/
def Decoder.mapValue
    (DecodeValue : Typ → Decoder → Value × Option Error × Decoder)
    (d : Decoder) (v : MapValue) : Option Error × MapValue × Decoder :=
  match d.DecodeMapLen with
  | (n, err, d1) =>
    if err ≠ none ∧ err ≠ some Error.ErrArrMap then (err, v, d1)
    else if n = -1 then (none, v, d1)
    else
      let m : Finmap (fun _ : Value => Value) :=
        match v.m with
        | none => ∅
        | some f => f
      let v1 : MapValue := { v with m := some m }
      if err = some Error.ErrArrMap then
        if v.keyType.Kind ≠ Kind.Int then (some (keyTypeError v.keyType.Kind), v1, d1)
        else
          match Decoder.mapValueArrayLoop DecodeValue v.keyType v.valueType n.toNat 0 m d1 with
          | (err2, m1, d2) => (err2, { v with m := some m1 }, d2)
      else
        match Decoder.mapValueLoop DecodeValue v.keyType v.valueType n.toNat m d1 with
        | (err2, m1, d2) => (err2, { v with m := some m1 }, d2)

/-! ## The dynamic map decoder and the record decoder -/

/-- The loop of `decodeMap`: `k` iterations still to run. The assignment `m[mk] = mv`
panics when the key is not hashable. -/
def decodeMapLoop (DecodeInterface : Decoder → Value × Option Error × Decoder) :
    Nat → Finmap (fun _ : Value => Value) → Decoder →
      Option (Finmap (fun _ : Value => Value)) × Option Error × Decoder
  | 0, m, d => (some m, none, d)
  | k + 1, m, d =>
    match DecodeInterface d with
    | (_, some err, d1) => (none, some err, d1)
    | (key, none, d1) =>
      match DecodeInterface d1 with
      | (_, some err, d2) => (none, some err, d2)
      | (val, none, d2) =>
        if hashable key then decodeMapLoop DecodeInterface k (m.insert key val) d2
        else (none, some Error.panic, d2)

/-- `func decodeMap(d *Decoder) (interface{}, error)`; the result is `none` for the
`nil` interface and `some m` for a map. `make` with the size hint `-1` is taken to
return an empty map. -/
def decodeMap (DecodeInterface : Decoder → Value × Option Error × Decoder) (d : Decoder) :
    Option (Finmap (fun _ : Value => Value)) × Option Error × Decoder :=
  match d.DecodeMapLen with
  | (_, some err, d1) => (none, some err, d1)
  | (n, none, d1) => decodeMapLoop DecodeInterface n.toNat ∅ d1

/-- A field descriptor of a record type with instances `S`: its omission predicate
and its bound encode and decode functions. -/
structure field (S : Type) where
  Omit : S → Bool
  EncodeValue : Encoder → S → Option Error × Encoder
  DecodeValue : Decoder → S → Option Error × S × Decoder

/-- The loop of `structValue`: `k` iterations still to run. -/
def Decoder.structValueLoop {S : Type}
    (fields : Finmap (fun _ : GoString => field S))
    (DecodeString : Decoder → GoString × Option Error × Decoder)
    (DecodeInterface : Decoder → Value × Option Error × Decoder) :
    Nat → S → Decoder → Option Error × S × Decoder
  | 0, strct, d => (none, strct, d)
  | k + 1, strct, d =>
    match DecodeString d with
    | (_, some err, d1) => (some err, strct, d1)
    | (name, none, d1) =>
      match fields.lookup name with
      | some f =>
        match f.DecodeValue d1 strct with
        | (some err, strct1, d2) => (some err, strct1, d2)
        | (none, strct1, d2) =>
          Decoder.structValueLoop fields DecodeString DecodeInterface k strct1 d2
      | none =>
        match DecodeInterface d1 with
        | (_, some err, d2) => (some err, strct, d2)
        | (_, none, d2) =>
          Decoder.structValueLoop fields DecodeString DecodeInterface k strct d2

/-- `func (d *Decoder) structValue(strct reflect.Value) error`; `fields` is
`structs.Fields(strct.Type())`. -/
def Decoder.structValue {S : Type}
    (fields : Finmap (fun _ : GoString => field S))
    (DecodeString : Decoder → GoString × Option Error × Decoder)
    (DecodeInterface : Decoder → Value × Option Error × Decoder)
    (d : Decoder) (strct : S) : Option Error × S × Decoder :=
  match d.DecodeMapLen with
  | (_, some err, d1) => (some err, strct, d1)
  | (n, none, d1) =>
    Decoder.structValueLoop fields DecodeString DecodeInterface n.toNat strct d1

/-- The first loop of `encodeStruct`, `for _, f := range fields`, counting the fields
that are not omitted; the list is the order in which `range` visits the fields. -/
def Encoder.encodeStructCount {S : Type} (strct : S) :
    List (Sigma fun _ : GoString => field S) → Int → Int
  | [], length => length
  | ⟨_, f⟩ :: rest, length =>
    if !f.Omit strct then Encoder.encodeStructCount strct rest (length + 1)
    else Encoder.encodeStructCount strct rest length

/-- The second loop of `encodeStruct`, `for name, f := range fields`, writing the
name and the value of every field that is not omitted. -/
def Encoder.encodeStructLoop {S : Type}
    (EncodeString : Encoder → GoString → Option Error × Encoder) (strct : S) :
    List (Sigma fun _ : GoString => field S) → Encoder → Option Error × Encoder
  | [], e => (none, e)
  | ⟨name, f⟩ :: rest, e =>
    if f.Omit strct then Encoder.encodeStructLoop EncodeString strct rest e
    else
      match EncodeString e name with
      | (some err, e1) => (some err, e1)
      | (none, e1) =>
        match f.EncodeValue e1 strct with
        | (some err, e2) => (some err, e2)
        | (none, e2) => Encoder.encodeStructLoop EncodeString strct rest e2

/-- `func (e *Encoder) encodeStruct(strct reflect.Value) error`; `fields`, the result
of `structs.Fields(strct.Type())`, is a Go map from names to descriptors, and `order1`
and `order2` are the orders in which the two `range fields` loops visit it. -/
def Encoder.encodeStruct {S : Type}
    (EncodeString : Encoder → GoString → Option Error × Encoder)
    (e : Encoder) (strct : S)
    (order1 order2 : List (Sigma fun _ : GoString => field S)) : Option Error × Encoder :=
  match e.encodeMapLen (Encoder.encodeStructCount strct order1 0) with
  | (some err, e1) => (some err, e1)
  | (none, e1) => Encoder.encodeStructLoop EncodeString strct order2 e1

/-! ## Auxiliary definitions used in the statements -/

/-- The bytes `encodeMapLen l` hands to the stream. -/
def mapLenBytes (l : Int) : List Byte :=
  if l < 16 then [codes.FixedMapLow ||| byteOfInt l]
  else if l < 65536 then
    [codes.Map16, byteOfNat (uint64OfInt l >>> 8), byteOfNat (uint64OfInt l)]
  else
    [codes.Map32, byteOfNat (uint64OfInt l >>> 24), byteOfNat (uint64OfInt l >>> 16),
      byteOfNat (uint64OfInt l >>> 8), byteOfNat (uint64OfInt l)]

/-- The first byte is one of the tags the length decoder recognises. -/
def isLengthTag (c : Byte) : Prop :=
  c = 0xc0 ∨ (0x80 ≤ c.val ∧ c.val ≤ 0x8f) ∨ c = 0xde ∨ c = 0xdf ∨
    (0x90 ≤ c.val ∧ c.val ≤ 0x9f) ∨ c = 0xdc ∨ c = 0xdd

instance (c : Byte) : Decidable (isLengthTag c) := by
  unfold isLengthTag
  infer_instance

/-- A string codec for instantiating the codec assumptions: every byte of the string
is preceded by `1`, and `0` ends the string. -/
def markedBytes : GoString → List Byte
  | [] => [0]
  | b :: s => 1 :: b :: markedBytes s

/-- Reads back `markedBytes`. -/
def markedParse : List Byte → Option (GoString × List Byte)
  | [] => none
  | [c] => if c = 0 then some ([], []) else none
  | c :: b :: rest =>
    if c = 0 then some ([], b :: rest)
    else
      match markedParse rest with
      | none => none
      | some (s, r) => some (b :: s, r)

/-- An `EncodeString` writing `markedBytes`. -/
def markedEncodeString (e : Encoder) (s : GoString) : Option Error × Encoder :=
  e.write (markedBytes s)

/-- A `DecodeString` reading `markedBytes`. -/
def markedDecodeString (d : Decoder) : GoString × Option Error × Decoder :=
  match markedParse d.r with
  | none => ([], some Error.ErrUnexpectedEOF, ⟨[]⟩)
  | some (s, r) => (s, none, ⟨r⟩)

/-- `DecodeString` undoes `EncodeString`: on a working stream `EncodeString` appends
bytes that `DecodeString` reads back as the same string, whatever follows them. -/
def StringCodecRoundTrip
    (EncodeString : Encoder → GoString → Option Error × Encoder)
    (DecodeString : Decoder → GoString × Option Error × Decoder) : Prop :=
  ∀ (e : Encoder) (s : GoString), e.werr = none →
    ∃ bs : List Byte, EncodeString e s = (none, ⟨e.w ++ bs, none⟩) ∧
      ∀ rest : List Byte, DecodeString ⟨bs ++ rest⟩ = (s, none, ⟨rest⟩)

/-- Inserting the entries of `order` one after the other, as the decode loops do. -/
def insertAll {K V : Type} [DecidableEq K] (m : Finmap (fun _ : K => V))
    (order : List (Sigma fun _ : K => V)) : Finmap (fun _ : K => V) :=
  order.foldl (fun acc kv => acc.insert kv.1 kv.2) m

/-- A two-entry text-to-text map used to instantiate the theorems. -/
def sampleMap : GoMap GoString GoString :=
  some ((∅ : Finmap (fun _ : GoString => GoString)).insert [3] [4] |>.insert [1] [2])

/-- The length prefix of a sequence of `n` elements in one of its three forms: the
small form `0x90 + n` for `n ≤ 15`, array16 with a 2-byte big-endian count, array32
with a 4-byte big-endian count. -/
def IsSeqHeader (hdr : List Byte) (n : Nat) : Prop :=
  (n ≤ 15 ∧ hdr = [byteOfNat (0x90 + n)]) ∨
  (∃ b0 b1 : Byte, hdr = [0xdc, b0, b1] ∧ b0.val * 256 + b1.val = n) ∨
  (∃ b0 b1 b2 b3 : Byte, hdr = [0xdd, b0, b1, b2, b3] ∧
    b0.val * 16777216 + b1.val * 65536 + b2.val * 256 + b3.val = n)

/-- Successive calls of the element decoder `DV` starting at `d` succeed, yield the
elements `es` in this order, and end at `d1`. -/
def DecodesAll (DV : Decoder → Value × Option Error × Decoder) :
    List Value → Decoder → Decoder → Prop
  | [], d, d1 => d = d1
  | x :: xs, d, d1 => ∃ d2 : Decoder, DV d = (x, none, d2) ∧ DecodesAll DV xs d2 d1

/-- An element decoder for instantiating the theorems: one byte, read as an integer
(the positive fixint form), whatever the static type. -/
def fixintDecodeValue (_ : Typ) (d : Decoder) : Value × Option Error × Decoder :=
  match d.ReadByte with
  | (_, some err, d1) => (Value.null, some err, d1)
  | (c, none, d1) => (Value.int c.val, none, d1)

/-- The content of a map after the array-as-map loop stored `es` under the keys
`i + 1, i + 2, …` on top of `base`. -/
def seqLookup (es : List Value) (i : Int) (base : Value → Option Value) (k : Value) :
    Option Value :=
  match k with
  | Value.int j => if i < j ∧ j ≤ i + es.length then es[(j - i - 1).toNat]? else base k
  | _ => base k

/-- The first byte is a sequence tag other than the zero-element small form: a
small-sequence tag `0x91..0x9f`, array16 or array32. -/
def isMarkedSeqTag (c : Byte) : Prop :=
  (0x91 ≤ c.val ∧ c.val ≤ 0x9f) ∨ c = 0xdc ∨ c = 0xdd

instance (c : Byte) : Decidable (isMarkedSeqTag c) := by
  unfold isMarkedSeqTag
  infer_instance

/-- The length prefix of a map of `n` entries in one of its three forms: the small
form `0x80 + n` for `n ≤ 15`, map16 with a 2-byte big-endian count, map32 with a
4-byte big-endian count. -/
def IsMapHeader (hdr : List Byte) (n : Nat) : Prop :=
  (n ≤ 15 ∧ hdr = [byteOfNat (0x80 + n)]) ∨
  (∃ b0 b1 : Byte, hdr = [0xde, b0, b1] ∧ b0.val * 256 + b1.val = n) ∨
  (∃ b0 b1 b2 b3 : Byte, hdr = [0xdf, b0, b1, b2, b3] ∧
    b0.val * 16777216 + b1.val * 65536 + b2.val * 256 + b3.val = n)

/-- Successive calls of the key decoder `DK` and the value decoder `DV`, starting at
`d`, succeed, yield the pairs `ps` in this order, and end at `d1`. -/
def DecodesPairs {K V : Type} (DK : Decoder → K × Option Error × Decoder)
    (DV : Decoder → V × Option Error × Decoder) :
    List (Sigma fun _ : K => V) → Decoder → Decoder → Prop
  | [], d, d1 => d = d1
  | ⟨k, v⟩ :: ps, d, d1 =>
    ∃ d2 d3 : Decoder, DK d = (k, none, d2) ∧ DV d2 = (v, none, d3) ∧
      DecodesPairs DK DV ps d3 d1

/-- A well-formed body of a dynamically typed map: the keys are hashable and the pairs
decode one after the other with `DecodeInterface`. -/
def DynamicPairs (DecodeInterface : Decoder → Value × Option Error × Decoder)
    (ps : List (Sigma fun _ : Value => Value)) (d d1 : Decoder) : Prop :=
  (∀ p ∈ ps, hashable p.1 = true) ∧ DecodesPairs DecodeInterface DecodeInterface ps d d1

/-- The value of the last pair of `ps` that carries the key `k`, if there is one. -/
def lastValue {K V : Type} [DecidableEq K] (ps : List (Sigma fun _ : K => V)) (k : K) :
    Option V :=
  ps.reverse.dlookup k

/-- An order in which `range fields` may visit the field descriptors: each exactly
once. -/
def IsFieldOrder {S : Type} (fields : Finmap (fun _ : GoString => field S))
    (order : List (Sigma fun _ : GoString => field S)) : Prop :=
  (order : Multiset (Sigma fun _ : GoString => field S)) = fields.entries

/-- The fields of `order` that are not omitted for the record `strct`, in the same
order. -/
def keptFields {S : Type} (strct : S) (order : List (Sigma fun _ : GoString => field S)) :
    List (Sigma fun _ : GoString => field S) :=
  order.filter (fun p => !p.2.Omit strct)

/-- The wire form of a list of fields of the record `strct`: for each field the bytes
of its name followed by the bytes of its value. -/
def pairBytes {S : Type} (sb : GoString → List Byte) (fb : GoString → S → List Byte)
    (strct : S) (kept : List (Sigma fun _ : GoString => field S)) : List Byte :=
  kept.flatMap (fun p => sb p.1 ++ fb p.1 strct)

/-- On a working stream `EncodeString` appends the wire form `sb s` of the string. -/
def WritesString (EncodeString : Encoder → GoString → Option Error × Encoder)
    (sb : GoString → List Byte) : Prop :=
  ∀ (e : Encoder) (s : GoString), e.werr = none → EncodeString e s = (none, ⟨e.w ++ sb s, none⟩)

/-- On a working stream the bound encode function of every field appends the wire form
`fb name r` of the value the record `r` holds in that field. -/
def WritesFields {S : Type} (fields : Finmap (fun _ : GoString => field S))
    (fb : GoString → S → List Byte) : Prop :=
  ∀ (name : GoString) (f : field S), fields.lookup name = some f →
    ∀ (e : Encoder) (r : S), e.werr = none →
      f.EncodeValue e r = (none, ⟨e.w ++ fb name r, none⟩)

/-- A record type with two byte-valued fields, for instantiating the theorems. -/
structure SampleRecord where
  A : Byte
  B : Byte
  deriving DecidableEq, Repr

/-- Descriptor of the field `A`: omitted when zero, written and read as one byte. -/
def fieldA : field SampleRecord where
  Omit := fun s => s.A == 0
  EncodeValue := fun e s => e.write [s.A]
  DecodeValue := fun d s =>
    match d.ReadByte with
    | (_, some err, d1) => (some err, s, d1)
    | (c, none, d1) => (none, { s with A := c }, d1)

/-- Descriptor of the field `B`: omitted when zero, written and read as one byte. -/
def fieldB : field SampleRecord where
  Omit := fun s => s.B == 0
  EncodeValue := fun e s => e.write [s.B]
  DecodeValue := fun d s =>
    match d.ReadByte with
    | (_, some err, d1) => (some err, s, d1)
    | (c, none, d1) => (none, { s with B := c }, d1)

/-- The field descriptors of `SampleRecord`, under the names `"A"` and `"B"`. -/
def sampleFields : Finmap (fun _ : GoString => field SampleRecord) :=
  (∅ : Finmap (fun _ : GoString => field SampleRecord)).insert [0x41] fieldA
    |>.insert [0x42] fieldB

/-- The wire form of the value of a field of `SampleRecord`. -/
def sampleFieldBytes (name : GoString) (r : SampleRecord) : List Byte :=
  if name = [0x41] then [r.A] else [r.B]

/-- The value a `SampleRecord` holds in the field of a given name. -/
def sampleGet (name : GoString) (r : SampleRecord) : Byte :=
  if name = [0x41] then r.A else if name = [0x42] then r.B else 0

/-- One entry of a record payload on the wire: the name its key decodes to, the bytes
of the key and the bytes of the value. -/
structure WireEntry where
  name : GoString
  kb : List Byte
  vb : List Byte

/-- The bytes of a list of entries: key bytes, value bytes, entry after entry. -/
def entryBytes : List WireEntry → List Byte
  | [] => []
  | en :: rest => en.kb ++ en.vb ++ entryBytes rest

/-- The key of the entry names a field of the record type. -/
def isKnown {S : Type} (fields : Finmap (fun _ : GoString => field S)) (en : WireEntry) : Bool :=
  (fields.lookup en.name).isSome

/-- A well-formed entry: `DecodeString` reads its key bytes as its name; when the name
is a field, the bound decode function of that field succeeds on its value bytes,
consumes exactly them and does not look at what follows; otherwise `DecodeInterface`
reads exactly one value from its value bytes. -/
def WellFormedEntry {S : Type} (fields : Finmap (fun _ : GoString => field S))
    (DecodeString : Decoder → GoString × Option Error × Decoder)
    (DecodeInterface : Decoder → Value × Option Error × Decoder) (en : WireEntry) : Prop :=
  (∀ rest : List Byte, DecodeString ⟨en.kb ++ rest⟩ = (en.name, none, ⟨rest⟩)) ∧
  match fields.lookup en.name with
  | some f => ∀ (s : S) (rest : List Byte),
      f.DecodeValue ⟨en.vb ++ rest⟩ s = (none, (f.DecodeValue ⟨en.vb⟩ s).2.1, ⟨rest⟩)
  | none => ∀ rest : List Byte, ∃ x : Value, DecodeInterface ⟨en.vb ++ rest⟩ = (x, none, ⟨rest⟩)

/-- The record after the bound decode function of every entry whose key names a field
has run on the value bytes of that entry, in the order of the entries; the other
entries leave the record as it is. -/
def applyEntries {S : Type} (fields : Finmap (fun _ : GoString => field S)) :
    List WireEntry → S → S
  | [], s => s
  | en :: rest, s =>
    match fields.lookup en.name with
    | some f => applyEntries fields rest (f.DecodeValue ⟨en.vb⟩ s).2.1
    | none => applyEntries fields rest s

/-- The bound decode function of a field changes no other field of the record; `get`
reads the field of a given name. -/
def DecodesOwnField {S V : Type} (fields : Finmap (fun _ : GoString => field S))
    (get : GoString → S → V) : Prop :=
  ∀ (name : GoString) (f : field S), fields.lookup name = some f →
    ∀ (d : Decoder) (s : S) (other : GoString), other ≠ name →
      get other (f.DecodeValue d s).2.1 = get other s

/-- A payload entry for the field `"A"` of `SampleRecord` with the value `5`. -/
def sampleEntryA : WireEntry := ⟨[0x41], markedBytes [0x41], [5]⟩

/-- A payload entry under the key `"X"`, which names no field of `SampleRecord`. -/
def sampleEntryX : WireEntry := ⟨[0x58], markedBytes [0x58], [9]⟩

/-- `DecodeString` reads the wire form `sb s` back as `s`, whatever follows it. -/
def ReadsString (DecodeString : Decoder → GoString × Option Error × Decoder)
    (sb : GoString → List Byte) : Prop :=
  ∀ (s : GoString) (rest : List Byte), DecodeString ⟨sb s ++ rest⟩ = (s, none, ⟨rest⟩)

/-- The bound decode function of every field undoes its bound encode function: on the
wire form `fb name r` it succeeds, consumes exactly these bytes, sets the field `name`
of the destination to the value `r` holds in it, and changes no other field; `get`
reads the field of a given name. -/
def ReadsFields {S V : Type} (fields : Finmap (fun _ : GoString => field S))
    (fb : GoString → S → List Byte) (get : GoString → S → V) : Prop :=
  ∀ (name : GoString) (f : field S), fields.lookup name = some f →
    ∀ (r s : S) (rest : List Byte),
      ∃ s1 : S, f.DecodeValue ⟨fb name r ++ rest⟩ s = (none, s1, ⟨rest⟩) ∧
        get name s1 = get name r ∧
        ∀ other : GoString, other ≠ name → get other s1 = get other s

/-! ## Arithmetic of the big-endian counts -/

theorem byteOfNat_val (n : Nat) : (byteOfNat n).val = n % 256 := rfl

theorem uint64OfInt_of_nonneg {l : Int} (h0 : 0 ≤ l) (h1 : l < 2 ^ 64) :
    uint64OfInt l = l.toNat := by
  unfold uint64OfInt
  rw [Int.emod_eq_of_lt h0 h1]

theorem be16_eq (b0 b1 : Byte) : b0.val <<< 8 ||| b1.val = b0.val * 256 + b1.val := by
  have h1 : b1.val < 2 ^ 8 := b1.isLt
  rw [Nat.shiftLeft_eq, Nat.mul_comm, ← Nat.mul_add_lt_is_or h1]

theorem be32_eq (b0 b1 b2 b3 : Byte) :
    b0.val <<< 24 ||| b1.val <<< 16 ||| b2.val <<< 8 ||| b3.val
      = b0.val * 16777216 + b1.val * 65536 + b2.val * 256 + b3.val := by
  have h1 : b1.val < 256 := b1.isLt
  have h2 : b2.val < 256 := b2.isLt
  have h3 : b3.val < 2 ^ 8 := b3.isLt
  have e1 : b0.val <<< 24 ||| b1.val <<< 16 = 2 ^ 24 * b0.val + b1.val * 65536 := by
    have : b1.val * 65536 < 2 ^ 24 := by omega
    rw [Nat.shiftLeft_eq, Nat.shiftLeft_eq, Nat.mul_comm b0.val, Nat.mul_add_lt_is_or this]
  have e2 : 2 ^ 24 * b0.val + b1.val * 65536 ||| b2.val <<< 8
      = 2 ^ 16 * (b0.val * 256 + b1.val) + b2.val * 256 := by
    have : b2.val * 256 < 2 ^ 16 := by omega
    rw [Nat.shiftLeft_eq, Nat.mul_add_lt_is_or this]
    congr 1
    omega
  have e3 : 2 ^ 16 * (b0.val * 256 + b1.val) + b2.val * 256 ||| b3.val
      = 2 ^ 8 * (b0.val * 65536 + b1.val * 256 + b2.val) + b3.val := by
    rw [Nat.mul_add_lt_is_or h3]
    congr 1
    omega
  rw [e1, e2, e3]
  omega

theorem encodeMapLen_eq (e : Encoder) (he : e.werr = none) (l : Int) :
    e.encodeMapLen l = (none, ⟨e.w ++ mapLenBytes l, none⟩) := by
  obtain ⟨w, werr⟩ := e
  simp only at he
  subst he
  unfold Encoder.encodeMapLen mapLenBytes
  by_cases h1 : l < 16
  · simp [h1, Encoder.WriteByte, Encoder.write]
  · by_cases h2 : l < 65536
    · simp [h1, h2, Encoder.write2, Encoder.write]
    · simp [h1, h2, Encoder.write4, Encoder.write]

theorem encodeMapLen_failed (e : Encoder) (err : Error) (he : e.werr = some err) (l : Int) :
    e.encodeMapLen l = (some err, e) := by
  unfold Encoder.encodeMapLen
  by_cases h1 : l < 16
  · simp [h1, Encoder.WriteByte, Encoder.write, he]
  · by_cases h2 : l < 65536
    · simp [h1, h2, Encoder.write2, Encoder.write, he]
    · simp [h1, h2, Encoder.write4, Encoder.write, he]

theorem mapLenBytes_small {l : Int} (h0 : 0 ≤ l) (h1 : l ≤ 15) :
    ∃ c : Byte, mapLenBytes l = [c] ∧ c.val = 0x80 ||| l.toNat ∧
      codes.FixedMapLow ≤ c ∧ c ≤ codes.FixedMapHigh ∧
      (c &&& codes.FixedMapMask).val = l.toNat := by
  refine ⟨codes.FixedMapLow ||| byteOfInt l, ?_, ?_⟩
  · have : l < 16 := by omega
    simp [mapLenBytes, this]
  · interval_cases l <;> decide

theorem mapLenBytes_medium {l : Int} (h0 : 16 ≤ l) (h1 : l ≤ 65535) :
    ∃ b0 b1 : Byte, mapLenBytes l = [codes.Map16, b0, b1] ∧
      b0.val * 256 + b1.val = l.toNat := by
  have hu : uint64OfInt l = l.toNat := uint64OfInt_of_nonneg (by omega) (by omega)
  refine ⟨byteOfNat (l.toNat >>> 8), byteOfNat l.toNat, ?_, ?_⟩
  · have a : ¬ l < 16 := by omega
    have b : l < 65536 := by omega
    simp [mapLenBytes, a, b, hu]
  · simp only [byteOfNat_val, Nat.shiftRight_eq_div_pow]
    omega

theorem mapLenBytes_large {l : Int} (h0 : 65536 ≤ l) (h1 : l < 2 ^ 32) :
    ∃ b0 b1 b2 b3 : Byte, mapLenBytes l = [codes.Map32, b0, b1, b2, b3] ∧
      b0.val * 16777216 + b1.val * 65536 + b2.val * 256 + b3.val = l.toNat := by
  have hu : uint64OfInt l = l.toNat := uint64OfInt_of_nonneg (by omega) (by omega)
  refine ⟨byteOfNat (l.toNat >>> 24), byteOfNat (l.toNat >>> 16), byteOfNat (l.toNat >>> 8),
    byteOfNat l.toNat, ?_, ?_⟩
  · have a : ¬ l < 16 := by omega
    have b : ¬ l < 65536 := by omega
    simp [mapLenBytes, a, b, hu]
  · simp only [byteOfNat_val, Nat.shiftRight_eq_div_pow]
    omega

/-! ## The length decoder, tag by tag -/

set_option maxRecDepth 100000 in
theorem mask_val (c : Byte) : (c &&& (0x0f : Byte)).val = c.val % 16 := by
  revert c
  decide

theorem DecodeMapLen_nil : Decoder.DecodeMapLen ⟨[]⟩ = (0, some Error.EOF, ⟨[]⟩) := rfl

theorem DecodeMapLen_cons (c : Byte) (s : List Byte) :
    Decoder.DecodeMapLen ⟨c :: s⟩ =
      if c.val = 0xc0 then (-1, none, ⟨s⟩)
      else if c.val = 0x90 then (0, none, ⟨s⟩)
      else if 0x90 < c.val ∧ c.val ≤ 0x9f then
        (((c.val % 16 : Nat) : Int), some Error.ErrArrMap, ⟨s⟩)
      else if c.val = 0xdc then
        ((((Decoder.uint16 ⟨s⟩).1 : Nat) : Int), some Error.ErrArrMap, (Decoder.uint16 ⟨s⟩).2.2)
      else if c.val = 0xdd then
        ((((Decoder.uint32 ⟨s⟩).1 : Nat) : Int), some Error.ErrArrMap, (Decoder.uint32 ⟨s⟩).2.2)
      else if 0x80 ≤ c.val ∧ c.val ≤ 0x8f then
        (((c.val % 16 : Nat) : Int), none, ⟨s⟩)
      else if c.val = 0xde then
        ((((Decoder.uint16 ⟨s⟩).1 : Nat) : Int), (Decoder.uint16 ⟨s⟩).2.1, (Decoder.uint16 ⟨s⟩).2.2)
      else if c.val = 0xdf then
        ((((Decoder.uint32 ⟨s⟩).1 : Nat) : Int), (Decoder.uint32 ⟨s⟩).2.1, (Decoder.uint32 ⟨s⟩).2.2)
      else (0, some (invalidCode c), ⟨s⟩) := by
  simp only [Decoder.DecodeMapLen, Decoder.ReadByte, codes.Nil, codes.FixedArrayLow,
    codes.FixedArrayHigh, codes.FixedArrayMask, codes.Array16, codes.Array32, codes.FixedMapLow,
    codes.FixedMapHigh, codes.FixedMapMask, codes.Map16, codes.Map32, mask_val,
    Fin.ext_iff, gt_iff_lt, ge_iff_le, Fin.lt_def, Fin.le_def]
  rfl

theorem uint16_cons (b0 b1 : Byte) (s : List Byte) :
    Decoder.uint16 ⟨b0 :: b1 :: s⟩ = (b0.val * 256 + b1.val, none, ⟨s⟩) := by
  simp [Decoder.uint16, be16_eq]

theorem uint32_cons (b0 b1 b2 b3 : Byte) (s : List Byte) :
    Decoder.uint32 ⟨b0 :: b1 :: b2 :: b3 :: s⟩
      = (b0.val * 16777216 + b1.val * 65536 + b2.val * 256 + b3.val, none, ⟨s⟩) := by
  simp [Decoder.uint32, be32_eq]

theorem DecodeMapLen_seq_forms (s : List Byte) :
    (∀ c : Byte, 0x91 ≤ c.val → c.val ≤ 0x9f →
      Decoder.DecodeMapLen ⟨c :: s⟩
        = (((c.val - 0x90 : Nat) : Int), some Error.ErrArrMap, ⟨s⟩)) ∧
    (∀ b0 b1 : Byte,
      Decoder.DecodeMapLen ⟨0xdc :: b0 :: b1 :: s⟩
        = (((b0.val * 256 + b1.val : Nat) : Int), some Error.ErrArrMap, ⟨s⟩)) ∧
    (∀ b0 b1 b2 b3 : Byte,
      Decoder.DecodeMapLen ⟨0xdd :: b0 :: b1 :: b2 :: b3 :: s⟩
        = (((b0.val * 16777216 + b1.val * 65536 + b2.val * 256 + b3.val : Nat) : Int),
            some Error.ErrArrMap, ⟨s⟩)) ∧
    Decoder.DecodeMapLen ⟨0x90 :: s⟩ = (0, none, ⟨s⟩) := by
  refine ⟨?_, ?_, ?_, ?_⟩
  · intro c h0 h1
    rw [DecodeMapLen_cons, if_neg (by omega), if_neg (by omega), if_pos (by omega)]
    have : c.val % 16 = c.val - 0x90 := by omega
    rw [this]
  · intro b0 b1
    simp [DecodeMapLen_cons, uint16_cons, show ((220 : Byte) : Nat) = 220 from rfl]
  · intro b0 b1 b2 b3
    simp [DecodeMapLen_cons, uint32_cons, show ((221 : Byte) : Nat) = 221 from rfl]
  · simp [DecodeMapLen_cons, show ((144 : Byte) : Nat) = 144 from rfl]

theorem DecodeMapLen_mapLenBytes {n : Int} (h0 : 0 ≤ n) (h1 : n < 2 ^ 32) (s : List Byte) :
    Decoder.DecodeMapLen ⟨mapLenBytes n ++ s⟩ = (n, none, ⟨s⟩) := by
  by_cases hs : n ≤ 15
  · obtain ⟨c, hc, hv, -, -, -⟩ := mapLenBytes_small h0 hs
    have hn : n.toNat ≤ 15 := by omega
    have hor : 0x80 ||| n.toNat = 128 + n.toNat := by
      interval_cases n.toNat <;> rfl
    rw [hor] at hv
    rw [hc, List.singleton_append, DecodeMapLen_cons]
    have e : ((c.val % 16 : Nat) : Int) = n := by omega
    simp only [e]
    rw [if_neg (by omega), if_neg (by omega), if_neg (by omega), if_neg (by omega),
      if_neg (by omega), if_pos (by omega)]
  · by_cases hm : n ≤ 65535
    · obtain ⟨b0, b1, hc, hv⟩ := mapLenBytes_medium (by omega) hm
      rw [hc]
      simp only [List.cons_append, List.nil_append, DecodeMapLen_cons, uint16_cons, codes.Map16]
      have e : ((b0.val * 256 + b1.val : Nat) : Int) = n := by omega
      simp [e, show ((222 : Byte) : Nat) = 222 from rfl]
    · obtain ⟨b0, b1, b2, b3, hc, hv⟩ := mapLenBytes_large (by omega) h1
      rw [hc]
      simp only [List.cons_append, List.nil_append, DecodeMapLen_cons, uint32_cons, codes.Map32]
      have e : ((b0.val * 16777216 + b1.val * 65536 + b2.val * 256 + b3.val : Nat) : Int) = n := by
        omega
      simp [e, show ((223 : Byte) : Nat) = 223 from rfl]

/-! ## Properties of the length prefix -/

/-- C5: `encodeMapLen(n)` on a working stream writes one byte `0x80 OR n` for
`0 ≤ n ≤ 15`, the byte `0xde` and the 2-byte big-endian count for `16 ≤ n ≤ 65535`,
and the byte `0xdf` and the 4-byte big-endian count for `65536 ≤ n < 2^32`. -/
theorem encodeMapLen_tag_form (e : Encoder) (he : e.werr = none) (n : Int) :
    (0 ≤ n ∧ n ≤ 15 → ∃ c : Byte, c.val = 0x80 ||| n.toNat ∧
        e.encodeMapLen n = (none, ⟨e.w ++ [c], none⟩)) ∧
    (16 ≤ n ∧ n ≤ 65535 → ∃ b0 b1 : Byte, (b0.val : Int) * 256 + b1.val = n ∧
        e.encodeMapLen n = (none, ⟨e.w ++ [0xde, b0, b1], none⟩)) ∧
    (65536 ≤ n ∧ n < 2 ^ 32 → ∃ b0 b1 b2 b3 : Byte,
        (b0.val : Int) * 16777216 + (b1.val : Int) * 65536 + (b2.val : Int) * 256 + b3.val = n ∧
        e.encodeMapLen n = (none, ⟨e.w ++ [0xdf, b0, b1, b2, b3], none⟩)) := by
  rw [encodeMapLen_eq e he]
  refine ⟨?_, ?_, ?_⟩
  · rintro ⟨h0, h1⟩
    obtain ⟨c, hc, hv, -⟩ := mapLenBytes_small h0 h1
    exact ⟨c, hv, by rw [hc]⟩
  · rintro ⟨h0, h1⟩
    obtain ⟨b0, b1, hc, hv⟩ := mapLenBytes_medium h0 h1
    exact ⟨b0, b1, by omega, by rw [hc]; rfl⟩
  · rintro ⟨h0, h1⟩
    obtain ⟨b0, b1, b2, b3, hc, hv⟩ := mapLenBytes_large h0 h1
    exact ⟨b0, b1, b2, b3, by omega, by rw [hc]; rfl⟩

/-- C1: for `0 ≤ n < 2^32`, the bytes `encodeMapLen(n)` writes, followed by any suffix
`s`, are read back by `DecodeMapLen` as length `n` with no error, leaving exactly `s`. -/
theorem DecodeMapLen_encodeMapLen (n : Int) (h0 : 0 ≤ n) (h1 : n < 2 ^ 32)
    (e : Encoder) (he : e.werr = none) (s : List Byte) :
    ∃ bs : List Byte, e.encodeMapLen n = (none, ⟨e.w ++ bs, none⟩) ∧
      Decoder.DecodeMapLen ⟨bs ++ s⟩ = (n, none, ⟨s⟩) :=
  ⟨mapLenBytes n, encodeMapLen_eq e he n, DecodeMapLen_mapLenBytes h0 h1 s⟩

/-- Witness of C5: the three tiers at `n = 5`, `n = 300` and `n = 70000`. -/
theorem encodeMapLen_tag_form_witness :
    (∃ c : Byte, c.val = 0x80 ||| (5 : Int).toNat ∧
        Encoder.encodeMapLen ⟨[1], none⟩ 5 = (none, ⟨[1] ++ [c], none⟩)) ∧
    (∃ b0 b1 : Byte, (b0.val : Int) * 256 + b1.val = 300 ∧
        Encoder.encodeMapLen ⟨[1], none⟩ 300 = (none, ⟨[1] ++ [0xde, b0, b1], none⟩)) ∧
    (∃ b0 b1 b2 b3 : Byte,
        (b0.val : Int) * 16777216 + (b1.val : Int) * 65536 + (b2.val : Int) * 256 + b3.val
          = 70000 ∧
        Encoder.encodeMapLen ⟨[1], none⟩ 70000 = (none, ⟨[1] ++ [0xdf, b0, b1, b2, b3], none⟩)) :=
  ⟨(encodeMapLen_tag_form ⟨[1], none⟩ rfl 5).1 ⟨by decide, by decide⟩,
   (encodeMapLen_tag_form ⟨[1], none⟩ rfl 300).2.1 ⟨by decide, by decide⟩,
   (encodeMapLen_tag_form ⟨[1], none⟩ rfl 70000).2.2 ⟨by decide, by decide⟩⟩

/-- Witness of C1 at `n = 300` with the suffix `[7]`. -/
theorem DecodeMapLen_encodeMapLen_witness :
    (0 : Int) ≤ 300 ∧ (300 : Int) < 2 ^ 32 ∧
    ∃ bs : List Byte, Encoder.encodeMapLen ⟨[], none⟩ 300 = (none, ⟨[] ++ bs, none⟩) ∧
      Decoder.DecodeMapLen ⟨bs ++ [7]⟩ = (300, none, ⟨[7]⟩) :=
  ⟨by decide, by decide,
    DecodeMapLen_encodeMapLen 300 (by decide) (by decide) ⟨[], none⟩ rfl [7]⟩

/-- C3, counterexample: on the zero-element small-sequence tag `0x90` the length
decoder returns length 0 with no error, not `ErrArrMap`. -/
theorem DecodeMapLen_empty_sequence_no_marker :
    Decoder.DecodeMapLen ⟨[0x90]⟩ = (0, none, ⟨[]⟩) ∧
      (Decoder.DecodeMapLen ⟨[0x90]⟩).2.1 ≠ some Error.ErrArrMap := by
  decide

/-- C3, amended: a small-sequence tag `0x91..0x9f`, the array16 tag followed by two
count bytes, and the array32 tag followed by four count bytes decode to the count
together with `ErrArrMap`; the zero-element small-sequence tag `0x90` decodes to
length 0 with no error. -/
theorem DecodeMapLen_sequence_tags (s : List Byte) :
    (∀ c : Byte, 0x91 ≤ c.val → c.val ≤ 0x9f →
      Decoder.DecodeMapLen ⟨c :: s⟩
        = (((c.val - 0x90 : Nat) : Int), some Error.ErrArrMap, ⟨s⟩)) ∧
    (∀ b0 b1 : Byte,
      Decoder.DecodeMapLen ⟨0xdc :: b0 :: b1 :: s⟩
        = (((b0.val * 256 + b1.val : Nat) : Int), some Error.ErrArrMap, ⟨s⟩)) ∧
    (∀ b0 b1 b2 b3 : Byte,
      Decoder.DecodeMapLen ⟨0xdd :: b0 :: b1 :: b2 :: b3 :: s⟩
        = (((b0.val * 16777216 + b1.val * 65536 + b2.val * 256 + b3.val : Nat) : Int),
            some Error.ErrArrMap, ⟨s⟩)) ∧
    Decoder.DecodeMapLen ⟨0x90 :: s⟩ = (0, none, ⟨s⟩) :=
  DecodeMapLen_seq_forms s

/-- Witness of C3 (amended) at the small-sequence tag `0x93`. -/
theorem DecodeMapLen_sequence_tags_witness :
    0x91 ≤ (0x93 : Byte).val ∧ (0x93 : Byte).val ≤ 0x9f ∧
    Decoder.DecodeMapLen ⟨(0x93 : Byte) :: [7]⟩
      = ((((0x93 : Byte).val - 0x90 : Nat) : Int), some Error.ErrArrMap, ⟨[7]⟩) :=
  ⟨by decide, by decide, (DecodeMapLen_sequence_tags [7]).1 0x93 (by decide) (by decide)⟩

theorem uint16_err_ne_text (d : Decoder) (msg : String) :
    (Decoder.uint16 d).2.1 ≠ some (Error.text msg) := by
  obtain ⟨r⟩ := d
  rcases r with _ | ⟨b0, _ | ⟨b1, r⟩⟩ <;> simp [Decoder.uint16]

theorem uint32_err_ne_text (d : Decoder) (msg : String) :
    (Decoder.uint32 d).2.1 ≠ some (Error.text msg) := by
  obtain ⟨r⟩ := d
  rcases r with _ | ⟨b0, _ | ⟨b1, _ | ⟨b2, _ | ⟨b3, r⟩⟩⟩⟩ <;> simp [Decoder.uint32]

/-- C4: on a non-empty input the length decoder returns the error
`msgpack: invalid code <first byte in hexadecimal> decoding map length` exactly when the
first byte is none of `0xc0`, `0x80..0x8f`, `0xde`, `0xdf`, `0x90..0x9f`, `0xdc`, `0xdd`;
in that case the length is 0 and only the tag byte is consumed, whatever follows it. -/
theorem DecodeMapLen_invalid_code_iff (c : Byte) (s : List Byte) :
    ((Decoder.DecodeMapLen ⟨c :: s⟩).2.1
        = some (Error.text ("msgpack: invalid code " ++ String.mk (Nat.toDigits 16 c.val)
            ++ " decoding map length"))
      ↔ ¬ isLengthTag c) ∧
    (¬ isLengthTag c →
      Decoder.DecodeMapLen ⟨c :: s⟩
        = (0, some (Error.text ("msgpack: invalid code " ++ String.mk (Nat.toDigits 16 c.val)
            ++ " decoding map length")), ⟨s⟩)) := by
  have key : ¬ isLengthTag c →
      Decoder.DecodeMapLen ⟨c :: s⟩ = (0, some (invalidCode c), ⟨s⟩) := by
    intro h
    simp only [isLengthTag, Fin.ext_iff, show ((0xc0 : Byte) : Nat) = 192 from rfl,
      show ((0xde : Byte) : Nat) = 222 from rfl, show ((0xdf : Byte) : Nat) = 223 from rfl,
      show ((0xdc : Byte) : Nat) = 220 from rfl, show ((0xdd : Byte) : Nat) = 221 from rfl,
      not_or] at h
    obtain ⟨h1, h2, h3, h4, h5, h6, h7⟩ := h
    rw [DecodeMapLen_cons, if_neg h1, if_neg (by omega), if_neg (by omega), if_neg h6,
      if_neg h7, if_neg h2, if_neg h3, if_neg h4]
  refine ⟨⟨?_, fun h => by rw [key h]; rfl⟩, fun h => by rw [key h]; rfl⟩
  intro h ht
  rw [DecodeMapLen_cons] at h
  simp only [isLengthTag, Fin.ext_iff, show ((0xc0 : Byte) : Nat) = 192 from rfl,
    show ((0xde : Byte) : Nat) = 222 from rfl, show ((0xdf : Byte) : Nat) = 223 from rfl,
    show ((0xdc : Byte) : Nat) = 220 from rfl, show ((0xdd : Byte) : Nat) = 221 from rfl] at ht
  split_ifs at h with h1 h2 h3 h4 h5 h6 h7 h8
  all_goals first
    | exact uint16_err_ne_text _ _ h
    | exact uint32_err_ne_text _ _ h
    | omega
    | exact absurd h (by simp)

/-- Witness of C4 at the byte `0xc1` followed by `[7]`. -/
theorem DecodeMapLen_invalid_code_iff_witness :
    ¬ isLengthTag 0xc1 ∧
    Decoder.DecodeMapLen ⟨(0xc1 : Byte) :: [7]⟩
      = (0, some (Error.text ("msgpack: invalid code " ++
          String.mk (Nat.toDigits 16 (0xc1 : Byte).val) ++ " decoding map length")), ⟨[7]⟩) ∧
    String.mk (Nat.toDigits 16 (0xc1 : Byte).val) = "c1" :=
  ⟨by decide, (DecodeMapLen_invalid_code_iff 0xc1 [7]).2 (by decide), by decide⟩

/-! ## The text-to-text map codec -/

theorem markedParse_markedBytes (s : GoString) (rest : List Byte) :
    markedParse (markedBytes s ++ rest) = some (s, rest) := by
  induction s with
  | nil => cases rest <;> rfl
  | cons b s ih =>
    show markedParse (1 :: b :: (markedBytes s ++ rest)) = some (b :: s, rest)
    rw [markedParse, if_neg (by decide)]
    simp only [ih]

theorem marked_roundTrip : StringCodecRoundTrip markedEncodeString markedDecodeString := by
  intro e s he
  refine ⟨markedBytes s, ?_, ?_⟩
  · obtain ⟨w, werr⟩ := e
    simp only at he
    subst he
    simp [markedEncodeString, Encoder.write]
  · intro rest
    simp [markedDecodeString, markedParse_markedBytes]

theorem lookup_insertAll {K V : Type} [DecidableEq K] (order : List (Sigma fun _ : K => V))
    (hnd : order.NodupKeys) (m : Finmap (fun _ : K => V)) (k : K) :
    (insertAll m order).lookup k = (order.dlookup k).orElse (fun _ => m.lookup k) := by
  induction order generalizing m with
  | nil => simp [insertAll]
  | cons kv rest ih =>
    obtain ⟨a, b⟩ := kv
    have hnd2 := List.nodupKeys_cons.mp hnd
    have := ih hnd2.2 (m.insert a b)
    simp only [insertAll, List.foldl_cons] at this ⊢
    rw [this]
    by_cases hk : k = a
    · subst hk
      have hnone : List.dlookup k rest = none := List.dlookup_eq_none.mpr hnd2.1
      simp [hnone, Finmap.lookup_insert]
    · rw [List.dlookup_cons_ne rest ⟨a, b⟩ hk, Finmap.lookup_insert_of_ne _ hk]

theorem insertAll_empty_eq {K V : Type} [DecidableEq K] (f : Finmap (fun _ : K => V))
    (order : List (Sigma fun _ : K => V))
    (h : (order : Multiset (Sigma fun _ : K => V)) = f.entries) :
    insertAll ∅ order = f := by
  have hnd : order.NodupKeys := by
    have := f.nodupKeys
    rw [← h] at this
    exact Multiset.coe_nodupKeys.mp this
  have hf : f = AList.toFinmap ⟨order, hnd⟩ := by
    apply Finmap.ext
    rw [AList.toFinmap_entries]
    exact h.symm
  apply Finmap.ext_lookup
  intro k
  rw [lookup_insertAll order hnd, hf, Finmap.lookup_toFinmap]
  simp [AList.lookup]

theorem encode_decode_loop
    (EncodeString : Encoder → GoString → Option Error × Encoder)
    (DecodeString : Decoder → GoString × Option Error × Decoder)
    (hcodec : StringCodecRoundTrip EncodeString DecodeString)
    (order : List (Sigma fun _ : GoString => GoString)) (e : Encoder) (he : e.werr = none) :
    ∃ bs : List Byte,
      Encoder.encodeMapStringStringLoop EncodeString order e = (none, ⟨e.w ++ bs, none⟩) ∧
      ∀ (m : Finmap (fun _ : GoString => GoString)) (rest : List Byte),
        Decoder.decodeIntoMapStringStringLoop DecodeString order.length m ⟨bs ++ rest⟩
          = (none, insertAll m order, ⟨rest⟩) := by
  induction order generalizing e with
  | nil =>
    refine ⟨[], ?_, ?_⟩
    · obtain ⟨w, werr⟩ := e
      simp only at he
      subst he
      simp [Encoder.encodeMapStringStringLoop]
    · intro m rest
      simp [Decoder.decodeIntoMapStringStringLoop, insertAll]
  | cons kv order ih =>
    obtain ⟨key, val⟩ := kv
    obtain ⟨bk, hek, hdk⟩ := hcodec e key he
    obtain ⟨bv, hev, hdv⟩ := hcodec ⟨e.w ++ bk, none⟩ val rfl
    obtain ⟨bs, hes, hds⟩ := ih ⟨e.w ++ bk ++ bv, none⟩ rfl
    refine ⟨bk ++ bv ++ bs, ?_, ?_⟩
    · simp only [List.append_assoc] at hev hes ⊢
      simp only [Encoder.encodeMapStringStringLoop, hek, hev, hes]
    · intro m rest
      simp only [Decoder.decodeIntoMapStringStringLoop, List.length_cons, List.append_assoc,
        hdk, hdv, hds, insertAll, List.foldl_cons]

/-- C2: when `DecodeString` undoes `EncodeString`, for every text-to-text map `m` with
fewer than `2^32` entries and every order in which `range m` visits it, decoding the
bytes written by `encodeMapStringString` into a nil destination succeeds, leaves the
destination holding exactly the entries of `m`, and consumes exactly those bytes. -/
theorem decodeIntoMapStringString_encodeMapStringString
    (EncodeString : Encoder → GoString → Option Error × Encoder)
    (DecodeString : Decoder → GoString × Option Error × Decoder)
    (hcodec : StringCodecRoundTrip EncodeString DecodeString)
    (m : GoMap GoString GoString) (hlen : m.len < 2 ^ 32)
    (order : List (Sigma fun _ : GoString => GoString)) (horder : m.IsRangeOrder order)
    (e : Encoder) (he : e.werr = none) :
    ∃ bs : List Byte,
      Encoder.encodeMapStringString EncodeString e m order = (none, ⟨e.w ++ bs, none⟩) ∧
      ∀ rest : List Byte,
        Decoder.decodeIntoMapStringString DecodeString ⟨bs ++ rest⟩ none
          = (none, some m.entries, ⟨rest⟩) := by
  have hcard : m.len = (order.length : Int) := by
    unfold GoMap.len
    rw [← horder, Multiset.coe_card]
  have h0 : (0 : Int) ≤ m.len := by rw [hcard]; exact Int.ofNat_nonneg _
  obtain ⟨bs, hes, hds⟩ :=
    encode_decode_loop EncodeString DecodeString hcodec order ⟨e.w ++ mapLenBytes m.len, none⟩ rfl
  refine ⟨mapLenBytes m.len ++ bs, ?_, ?_⟩
  · simp only [List.append_assoc] at hes ⊢
    unfold Encoder.encodeMapStringString
    rw [encodeMapLen_eq e he]
    exact hes
  · intro rest
    have hne : m.len ≠ -1 := by omega
    have hto : m.len.toNat = order.length := by omega
    unfold Decoder.decodeIntoMapStringString
    rw [List.append_assoc, DecodeMapLen_mapLenBytes h0 hlen]
    simp only [if_neg hne, hto, hds]
    rw [show insertAll ∅ order = m.entries from insertAll_empty_eq m.entries order horder]

/-- Witness of C2: the sample map, visited in the order `[3], [1]`, with the marked
string codec. -/
theorem decodeIntoMapStringString_encodeMapStringString_witness :
    StringCodecRoundTrip markedEncodeString markedDecodeString ∧
    sampleMap.len < 2 ^ 32 ∧
    sampleMap.IsRangeOrder [⟨[3], [4]⟩, ⟨[1], [2]⟩] ∧
    ∃ bs : List Byte,
      Encoder.encodeMapStringString markedEncodeString ⟨[], none⟩ sampleMap
          [⟨[3], [4]⟩, ⟨[1], [2]⟩] = (none, ⟨[] ++ bs, none⟩) ∧
      ∀ rest : List Byte,
        Decoder.decodeIntoMapStringString markedDecodeString ⟨bs ++ rest⟩ none
          = (none, some sampleMap.entries, ⟨rest⟩) :=
  ⟨marked_roundTrip, by decide, by decide,
    decodeIntoMapStringString_encodeMapStringString markedEncodeString markedDecodeString
      marked_roundTrip sampleMap (by decide) [⟨[3], [4]⟩, ⟨[1], [2]⟩] (by decide)
      ⟨[], none⟩ rfl⟩

/-! ## The typed map decoder on sequence-tagged payloads -/

theorem DecodeMapLen_seqHeader {hdr : List Byte} {n : Nat} (h : IsSeqHeader hdr n)
    (tail : List Byte) :
    (n = 0 ∧ Decoder.DecodeMapLen ⟨hdr ++ tail⟩ = (0, none, ⟨tail⟩)) ∨
    Decoder.DecodeMapLen ⟨hdr ++ tail⟩ = ((n : Int), some Error.ErrArrMap, ⟨tail⟩) := by
  rcases h with ⟨hn, rfl⟩ | ⟨b0, b1, rfl, hv⟩ | ⟨b0, b1, b2, b3, rfl, hv⟩
  · have hval : (byteOfNat (0x90 + n)).val = 0x90 + n := by
      rw [byteOfNat_val]; omega
    by_cases h0 : n = 0
    · left
      subst h0
      exact ⟨rfl, (DecodeMapLen_seq_forms tail).2.2.2⟩
    · right
      rw [List.singleton_append, DecodeMapLen_cons, hval, if_neg (by omega), if_neg (by omega),
        if_pos (by omega)]
      have : (0x90 + n) % 16 = n := by omega
      rw [this]
  · right
    rw [← hv]
    exact (DecodeMapLen_seq_forms tail).2.1 b0 b1
  · right
    rw [← hv]
    exact (DecodeMapLen_seq_forms tail).2.2.1 b0 b1 b2 b3

theorem arrayLoop_spec (DecodeValue : Typ → Decoder → Value × Option Error × Decoder)
    (vt : Typ) (es : List Value) (i : Int) (m : Finmap (fun _ : Value => Value))
    (d d1 : Decoder) (h : DecodesAll (DecodeValue vt) es d d1) :
    ∃ m1 : Finmap (fun _ : Value => Value),
      Decoder.mapValueArrayLoop DecodeValue intType vt es.length i m d = (none, m1, d1) ∧
      ∀ k : Value, m1.lookup k = seqLookup es i (fun k => m.lookup k) k := by
  induction es generalizing i m d with
  | nil =>
    simp only [DecodesAll] at h
    subst h
    refine ⟨m, rfl, ?_⟩
    intro k
    cases k with
    | int j =>
      simp only [seqLookup, List.length_nil]
      rw [if_neg]
      push_cast
      omega
    | _ => rfl
  | cons x xs ih =>
    obtain ⟨d2, hx, hxs⟩ := h
    obtain ⟨m1, hrun, hlook⟩ := ih (i + 1) (m.insert (Value.int (i + 1)) x) d2 hxs
    refine ⟨m1, ?_, ?_⟩
    · simp only [List.length_cons, Decoder.mapValueArrayLoop, hx, hrun, if_true]
    · intro k
      rw [hlook k]
      cases k with
      | int j =>
        simp only [seqLookup, List.length_cons, Nat.cast_add, Nat.cast_one]
        by_cases hj : j = i + 1
        · subst hj
          rw [if_neg (by omega), if_pos (by omega), Finmap.lookup_insert]
          simp
        · by_cases hr : i + 1 < j ∧ j ≤ i + 1 + xs.length
          · rw [if_pos hr, if_pos (by omega)]
            have : (j - i - 1).toNat = (j - (i + 1) - 1).toNat + 1 := by omega
            rw [this, List.getElem?_cons_succ]
          · rw [if_neg hr, if_neg (by omega),
              Finmap.lookup_insert_of_ne _ (fun h => hj (Value.int.inj h))]
      | null => simp [seqLookup, Finmap.lookup_insert_of_ne]
      | bool b => simp [seqLookup, Finmap.lookup_insert_of_ne]
      | str b => simp [seqLookup, Finmap.lookup_insert_of_ne]
      | bin b => simp [seqLookup, Finmap.lookup_insert_of_ne]

theorem mapValue_seq (DecodeValue : Typ → Decoder → Value × Option Error × Decoder)
    (v : MapValue) (hk : v.keyType = intType)
    (hdr : List Byte) (es : List Value) (hh : IsSeqHeader hdr es.length)
    (tail : List Byte) (d1 : Decoder)
    (hdec : DecodesAll (DecodeValue v.valueType) es ⟨tail⟩ d1) :
    ∃ m1 : Finmap (fun _ : Value => Value),
      Decoder.mapValue DecodeValue ⟨hdr ++ tail⟩ v = (none, { v with m := some m1 }, d1) ∧
      ∀ k : Value, m1.lookup k = seqLookup es 0 (fun k => v.m.entries.lookup k) k := by
  have hent : (match v.m with | none => (∅ : Finmap (fun _ : Value => Value)) | some f => f)
      = v.m.entries := by
    cases v.m <;> rfl
  rcases DecodeMapLen_seqHeader hh tail with ⟨h0, hlen⟩ | hlen
  · have hes : es = [] := List.length_eq_zero.mp h0
    subst hes
    simp only [DecodesAll] at hdec
    subst hdec
    refine ⟨v.m.entries, ?_, ?_⟩
    · unfold Decoder.mapValue
      rw [hlen]
      simp [Decoder.mapValueLoop, hent]
    · intro k
      cases k with
      | int j =>
        simp only [seqLookup, List.length_nil]
        rw [if_neg]
        push_cast
        omega
      | _ => rfl
  · obtain ⟨m1, hrun, hlook⟩ := arrayLoop_spec DecodeValue v.valueType es 0 v.m.entries _ _ hdec
    refine ⟨m1, ?_, hlook⟩
    unfold Decoder.mapValue
    rw [hlen]
    have hne : ((es.length : Nat) : Int) ≠ -1 := by omega
    have hkind : v.keyType.Kind = Kind.Int := by rw [hk]; rfl
    rw [← hk] at hrun
    simp [hne, hkind, hent, hrun]

/-- C6, counterexample: a destination `map[MyInt]int` with `type MyInt int` has key
kind `int`, yet on the one-element sequence `91 05` `mapValue` does not succeed: the
element is decoded and `SetMapIndex` panics on the key of type `int`. -/
theorem mapValue_defined_int_key_panics :
    (⟨"MyInt", Kind.Int⟩ : Typ).Kind = Kind.Int ∧
    Decoder.mapValue fixintDecodeValue ⟨[0x91, 5]⟩
        ⟨⟨"MyInt", Kind.Int⟩, ⟨"int", Kind.Int⟩, none⟩
      = (some Error.panic, ⟨⟨"MyInt", Kind.Int⟩, ⟨"int", Kind.Int⟩, some ∅⟩, ⟨[]⟩) := by
  decide

/-- C6, amended: for a destination whose key type is `int`, nil or empty, and a
sequence-tagged payload of `n` elements `es`, each decoded by `DecodeValue` at the
destination's element type, `mapValue` succeeds, consumes the length prefix and the
`n` element encodings only, and leaves the destination with exactly the entries
`{1: es[0], 2: es[1], …, n: es[n-1]}`. -/
theorem mapValue_array_as_map
    (DecodeValue : Typ → Decoder → Value × Option Error × Decoder)
    (v : MapValue) (hk : v.keyType = intType) (hm : v.m = none ∨ v.m = some ∅)
    (hdr : List Byte) (es : List Value) (hh : IsSeqHeader hdr es.length)
    (tail : List Byte) (d1 : Decoder)
    (hdec : DecodesAll (DecodeValue v.valueType) es ⟨tail⟩ d1) :
    ∃ m1 : Finmap (fun _ : Value => Value),
      Decoder.mapValue DecodeValue ⟨hdr ++ tail⟩ v = (none, { v with m := some m1 }, d1) ∧
      ∀ k : Value, m1.lookup k =
        match k with
        | Value.int j => if 1 ≤ j ∧ j ≤ es.length then es[(j - 1).toNat]? else none
        | _ => none := by
  obtain ⟨m1, hrun, hlook⟩ := mapValue_seq DecodeValue v hk hdr es hh tail d1 hdec
  refine ⟨m1, hrun, ?_⟩
  have hempty : ∀ k : Value, v.m.entries.lookup k = none := by
    intro k
    rcases hm with h | h <;> rw [h] <;> exact Finmap.lookup_empty k
  intro k
  rw [hlook k]
  cases k with
  | int j =>
    simp only [seqLookup, hempty]
    by_cases hj : 1 ≤ j ∧ j ≤ es.length
    · rw [if_pos hj, if_pos (by omega)]
      have : (j - 0 - 1).toNat = (j - 1).toNat := by omega
      rw [this]
    · rw [if_neg hj, if_neg (by omega)]
  | _ => simp only [seqLookup, hempty]

/-- Witness of C6: the payload `92 07 09` followed by `01`, decoded into a nil
`map[int]int`. -/
theorem mapValue_array_as_map_witness :
    IsSeqHeader [0x92] [Value.int 7, Value.int 9].length ∧
    DecodesAll (fixintDecodeValue ⟨"int", Kind.Int⟩) [Value.int 7, Value.int 9]
      ⟨[7, 9, 1]⟩ ⟨[1]⟩ ∧
    ∃ m1 : Finmap (fun _ : Value => Value),
      Decoder.mapValue fixintDecodeValue ⟨[0x92] ++ [7, 9, 1]⟩
          ⟨⟨"int", Kind.Int⟩, ⟨"int", Kind.Int⟩, none⟩
        = (none, { (⟨⟨"int", Kind.Int⟩, ⟨"int", Kind.Int⟩, none⟩ : MapValue) with
            m := some m1 }, ⟨[1]⟩) ∧
      ∀ k : Value, m1.lookup k =
        match k with
        | Value.int j =>
          if 1 ≤ j ∧ j ≤ [Value.int 7, Value.int 9].length then
            [Value.int 7, Value.int 9][(j - 1).toNat]?
          else none
        | _ => none :=
  ⟨Or.inl ⟨by decide, by decide⟩, ⟨⟨[9, 1]⟩, rfl, ⟨[1]⟩, rfl, rfl⟩,
    mapValue_array_as_map fixintDecodeValue ⟨⟨"int", Kind.Int⟩, ⟨"int", Kind.Int⟩, none⟩ rfl
      (Or.inl rfl) [0x92] [Value.int 7, Value.int 9] (Or.inl ⟨by decide, by decide⟩)
      [7, 9, 1] ⟨[1]⟩ ⟨⟨[9, 1]⟩, rfl, ⟨[1]⟩, rfl, rfl⟩⟩

/-- C7, counterexample: with a destination whose key kind is `int64`, an integer
kind, the one-element sequence `91 05` is rejected with the key-type error. -/
theorem mapValue_int64_keys_rejected :
    isIntegerKind Kind.Int64 = true ∧
    (Decoder.mapValue fixintDecodeValue ⟨[0x91, 5]⟩
        ⟨⟨"int64", Kind.Int64⟩, ⟨"int", Kind.Int⟩, none⟩).1
      = some (keyTypeError Kind.Int64) := by
  decide

/-- C7, amended: on a sequence-tagged payload of `n ≥ 1` well-formed elements,
`mapValue` succeeds on the array-as-map path when the destination's key type is `int`,
storing element `i` under key `i` for `1 ≤ i ≤ n`; for every key kind other than
`int`, the other integer kinds included, it fails with the key-type error. -/
theorem mapValue_array_key_kind
    (DecodeValue : Typ → Decoder → Value × Option Error × Decoder)
    (v : MapValue) (hdr : List Byte) (es : List Value) (hne : es ≠ [])
    (hh : IsSeqHeader hdr es.length) (tail : List Byte) (d1 : Decoder)
    (hdec : DecodesAll (DecodeValue v.valueType) es ⟨tail⟩ d1) :
    (v.keyType = intType →
      (Decoder.mapValue DecodeValue ⟨hdr ++ tail⟩ v).1 = none ∧
      ∀ i : Nat, 1 ≤ i → i ≤ es.length →
        (Decoder.mapValue DecodeValue ⟨hdr ++ tail⟩ v).2.1.m.entries.lookup (Value.int i)
          = es[i - 1]?) ∧
    (v.keyType.Kind ≠ Kind.Int →
      (Decoder.mapValue DecodeValue ⟨hdr ++ tail⟩ v).1
        = some (keyTypeError v.keyType.Kind)) := by
  constructor
  · intro hk
    obtain ⟨m1, hrun, hlook⟩ := mapValue_seq DecodeValue v hk hdr es hh tail d1 hdec
    rw [hrun]
    refine ⟨rfl, ?_⟩
    intro i h1 h2
    show m1.lookup (Value.int i) = es[i - 1]?
    rw [hlook]
    simp only [seqLookup]
    rw [if_pos (by omega)]
    have : ((i : Int) - 0 - 1).toNat = i - 1 := by omega
    rw [this]
  · intro hk
    have hlen : 0 < es.length := List.length_pos.mpr hne
    rcases DecodeMapLen_seqHeader hh tail with ⟨h0, -⟩ | h
    · omega
    · unfold Decoder.mapValue
      rw [h]
      have hn1 : ((es.length : Nat) : Int) ≠ -1 := by omega
      simp [hn1, hk]

/-- Witness of C7 (amended): `92 07 09` into a `map[int]int`. -/
theorem mapValue_array_key_kind_witness :
    (Decoder.mapValue fixintDecodeValue ⟨[0x92] ++ [7, 9, 1]⟩
        ⟨⟨"int", Kind.Int⟩, ⟨"int", Kind.Int⟩, none⟩).1 = none ∧
    ∀ i : Nat, 1 ≤ i → i ≤ [Value.int 7, Value.int 9].length →
      (Decoder.mapValue fixintDecodeValue ⟨[0x92] ++ [7, 9, 1]⟩
          ⟨⟨"int", Kind.Int⟩, ⟨"int", Kind.Int⟩, none⟩).2.1.m.entries.lookup (Value.int i)
        = [Value.int 7, Value.int 9][i - 1]? :=
  (mapValue_array_key_kind fixintDecodeValue ⟨⟨"int", Kind.Int⟩, ⟨"int", Kind.Int⟩, none⟩
    [0x92] [Value.int 7, Value.int 9] (by decide) (Or.inl ⟨by decide, by decide⟩)
    [7, 9, 1] ⟨[1]⟩ ⟨⟨[9, 1]⟩, rfl, ⟨[1]⟩, rfl, rfl⟩).1 rfl

theorem DecodeMapLen_marked {c : Byte} (hc : isMarkedSeqTag c) (s : List Byte) :
    ∃ (n : Nat) (d1 : Decoder),
      Decoder.DecodeMapLen ⟨c :: s⟩ = ((n : Int), some Error.ErrArrMap, d1) := by
  rcases hc with ⟨h0, h1⟩ | rfl | rfl
  · exact ⟨_, _, (DecodeMapLen_seq_forms s).1 c h0 h1⟩
  · refine ⟨(Decoder.uint16 ⟨s⟩).1, (Decoder.uint16 ⟨s⟩).2.2, ?_⟩
    simp [DecodeMapLen_cons, show ((220 : Byte) : Nat) = 220 from rfl]
  · refine ⟨(Decoder.uint32 ⟨s⟩).1, (Decoder.uint32 ⟨s⟩).2.2, ?_⟩
    simp [DecodeMapLen_cons, show ((221 : Byte) : Nat) = 221 from rfl]

theorem kind_ne_int_of_not_integer {k : Kind} (h : isIntegerKind k = false) : k ≠ Kind.Int := by
  rintro rfl
  exact absurd h (by decide)

/-- C8, counterexample: the empty sequence `0x90` decoded into a map with string keys
is accepted: `mapValue` returns no error. -/
theorem mapValue_empty_sequence_string_keys :
    isIntegerKind Kind.String = false ∧
    Decoder.mapValue fixintDecodeValue ⟨[0x90]⟩
        ⟨⟨"string", Kind.String⟩, ⟨"string", Kind.String⟩, none⟩
      = (none, ⟨⟨"string", Kind.String⟩, ⟨"string", Kind.String⟩, some ∅⟩, ⟨[]⟩) := by
  decide

/-- C8, amended: for every input whose first byte is a small-sequence tag
`0x91..0x9f`, array16 or array32 (any count) and every destination whose key kind is
not an integer kind, `mapValue` fails with an error whose message ends in the name of
the key kind; the entries of the destination are unchanged and nothing is read beyond
the length prefix, whatever the element decoder is. On the empty small form `0x90`
`mapValue` succeeds and decodes no entry: only the tag is consumed, a nil destination
becomes an empty map and an allocated one keeps its entries. -/
theorem mapValue_array_rejected
    (DecodeValue : Typ → Decoder → Value × Option Error × Decoder)
    (c : Byte) (s : List Byte) (v : MapValue) :
    (isMarkedSeqTag c → isIntegerKind v.keyType.Kind = false →
      Decoder.mapValue DecodeValue ⟨c :: s⟩ v
        = (some (Error.text
              ("array map\x27s must be map[int]xx" ++ kindString v.keyType.Kind)),
            { v with m := some v.m.entries }, (Decoder.DecodeMapLen ⟨c :: s⟩).2.2)) ∧
    Decoder.mapValue DecodeValue ⟨0x90 :: s⟩ v
      = (none, { v with m := some v.m.entries }, ⟨s⟩) := by
  have hent : (match v.m with | none => (∅ : Finmap (fun _ : Value => Value)) | some f => f)
      = v.m.entries := by
    cases v.m <;> rfl
  constructor
  · intro hc hk
    obtain ⟨n, d1, h⟩ := DecodeMapLen_marked hc s
    have hne := kind_ne_int_of_not_integer hk
    unfold Decoder.mapValue
    rw [h]
    have hn1 : ((n : Nat) : Int) ≠ -1 := by omega
    simp [hn1, hne, hent, keyTypeError]
  · unfold Decoder.mapValue
    rw [(DecodeMapLen_seq_forms s).2.2.2]
    simp [hent, Decoder.mapValueLoop]

/-- Witness of C8 (amended): `92 07 09` into a nil `map[string]int`. -/
theorem mapValue_array_rejected_witness :
    isMarkedSeqTag 0x92 ∧ isIntegerKind Kind.String = false ∧
    Decoder.mapValue fixintDecodeValue ⟨(0x92 : Byte) :: [7, 9]⟩
        ⟨⟨"string", Kind.String⟩, ⟨"int", Kind.Int⟩, none⟩
      = (some (Error.text ("array map\x27s must be map[int]xx" ++ kindString Kind.String)),
          { (⟨⟨"string", Kind.String⟩, ⟨"int", Kind.Int⟩, none⟩ : MapValue) with
            m := some (GoMap.entries (none : GoMap Value Value)) },
          (Decoder.DecodeMapLen ⟨(0x92 : Byte) :: [7, 9]⟩).2.2) :=
  ⟨by decide, by decide,
    (mapValue_array_rejected fixintDecodeValue 0x92 [7, 9]
      ⟨⟨"string", Kind.String⟩, ⟨"int", Kind.Int⟩, none⟩).1 (by decide) (by decide)⟩

/-- C9, counterexample: on the empty sequence `0x90` none of the three decoders
returns `ErrArrMap`: `decodeMap` returns an empty map, `decodeIntoMapStringString`
allocates the nil destination, and `structValue` returns, all with no error. -/
theorem nonTolerant_decoders_accept_empty_sequence :
    decodeMap (fixintDecodeValue ⟨"interface", Kind.Interface⟩) ⟨[0x90]⟩
      = (some ∅, none, ⟨[]⟩) ∧
    Decoder.decodeIntoMapStringString markedDecodeString ⟨[0x90]⟩ none
      = (none, some ∅, ⟨[]⟩) ∧
    Decoder.structValue (∅ : Finmap (fun _ : GoString => field Unit)) markedDecodeString
      (fixintDecodeValue ⟨"interface", Kind.Interface⟩) ⟨[0x90]⟩ ()
      = (none, (), ⟨[]⟩) := by
  refine ⟨by decide, by decide, rfl⟩

/-- C9, amended: for every input whose first byte is a small-sequence tag
`0x91..0x9f`, array16 or array32, each of `decodeMap`, `decodeIntoMapStringString` and
`structValue` returns exactly `ErrArrMap`, reads nothing beyond the length prefix and
leaves its destination as it was (`decodeMap` returns the nil interface). On the empty
sequence `0x90` each of them succeeds, consuming the tag only and decoding no entry:
`decodeMap` returns an empty map, `decodeIntoMapStringString` leaves the destination
allocated with its prior entries, `structValue` leaves the record as it was. -/
theorem nonTolerant_decoders_propagate {S : Type}
    (DecodeString : Decoder → GoString × Option Error × Decoder)
    (DecodeInterface : Decoder → Value × Option Error × Decoder)
    (fields : Finmap (fun _ : GoString => field S))
    (c : Byte) (s : List Byte)
    (mp : GoMap GoString GoString) (strct : S) :
    (isMarkedSeqTag c →
      decodeMap DecodeInterface ⟨c :: s⟩
        = (none, some Error.ErrArrMap, (Decoder.DecodeMapLen ⟨c :: s⟩).2.2) ∧
      Decoder.decodeIntoMapStringString DecodeString ⟨c :: s⟩ mp
        = (some Error.ErrArrMap, mp, (Decoder.DecodeMapLen ⟨c :: s⟩).2.2) ∧
      Decoder.structValue fields DecodeString DecodeInterface ⟨c :: s⟩ strct
        = (some Error.ErrArrMap, strct, (Decoder.DecodeMapLen ⟨c :: s⟩).2.2)) ∧
    decodeMap DecodeInterface ⟨0x90 :: s⟩ = (some ∅, none, ⟨s⟩) ∧
    Decoder.decodeIntoMapStringString DecodeString ⟨0x90 :: s⟩ mp
      = (none, some mp.entries, ⟨s⟩) ∧
    Decoder.structValue fields DecodeString DecodeInterface ⟨0x90 :: s⟩ strct
      = (none, strct, ⟨s⟩) := by
  have h0 := (DecodeMapLen_seq_forms s).2.2.2
  refine ⟨?_, ?_, ?_, ?_⟩
  · intro hc
    obtain ⟨n, d1, h⟩ := DecodeMapLen_marked hc s
    refine ⟨?_, ?_, ?_⟩
    · unfold decodeMap
      rw [h]
    · unfold Decoder.decodeIntoMapStringString
      rw [h]
    · unfold Decoder.structValue
      rw [h]
  · unfold decodeMap
    rw [h0]
    rfl
  · have hent : (match mp with
        | none => (∅ : Finmap (fun _ : GoString => GoString)) | some f => f) = mp.entries := by
      cases mp <;> rfl
    unfold Decoder.decodeIntoMapStringString
    rw [h0]
    simp [hent, Decoder.decodeIntoMapStringStringLoop]
  · unfold Decoder.structValue
    rw [h0]
    rfl

/-- Witness of C9 (amended): the input `93 01 02`, a non-nil text-to-text destination
and a record without fields. -/
theorem nonTolerant_decoders_propagate_witness :
    isMarkedSeqTag 0x93 ∧
    decodeMap (fixintDecodeValue ⟨"interface", Kind.Interface⟩) ⟨(0x93 : Byte) :: [1, 2]⟩
      = (none, some Error.ErrArrMap, (Decoder.DecodeMapLen ⟨(0x93 : Byte) :: [1, 2]⟩).2.2) ∧
    Decoder.decodeIntoMapStringString markedDecodeString ⟨(0x93 : Byte) :: [1, 2]⟩ sampleMap
      = (some Error.ErrArrMap, sampleMap,
          (Decoder.DecodeMapLen ⟨(0x93 : Byte) :: [1, 2]⟩).2.2) ∧
    Decoder.structValue (∅ : Finmap (fun _ : GoString => field Unit)) markedDecodeString
        (fixintDecodeValue ⟨"interface", Kind.Interface⟩) ⟨(0x93 : Byte) :: [1, 2]⟩ ()
      = (some Error.ErrArrMap, (), (Decoder.DecodeMapLen ⟨(0x93 : Byte) :: [1, 2]⟩).2.2) :=
  ⟨by decide,
    (nonTolerant_decoders_propagate markedDecodeString
      (fixintDecodeValue ⟨"interface", Kind.Interface⟩)
      (∅ : Finmap (fun _ : GoString => field Unit)) 0x93 [1, 2] sampleMap ()).1 (by decide)⟩

/-- C10: when the next byte is the nil tag `0xc0`, `DecodeMapLen` reports length `-1`
with no error, and `decodeIntoMapStringString` and `mapValue` return success after
consuming exactly that byte, leaving the destination as it was: a nil destination
stays nil and an allocated one keeps its entries. -/
theorem nil_payload_leaves_destination
    (DecodeString : Decoder → GoString × Option Error × Decoder)
    (DecodeValue : Typ → Decoder → Value × Option Error × Decoder)
    (s : List Byte) (mp : GoMap GoString GoString) (v : MapValue) :
    Decoder.DecodeMapLen ⟨0xc0 :: s⟩ = (-1, none, ⟨s⟩) ∧
    Decoder.decodeIntoMapStringString DecodeString ⟨0xc0 :: s⟩ mp = (none, mp, ⟨s⟩) ∧
    Decoder.mapValue DecodeValue ⟨0xc0 :: s⟩ v = (none, v, ⟨s⟩) := by
  have h : Decoder.DecodeMapLen ⟨0xc0 :: s⟩ = (-1, none, ⟨s⟩) := by
    simp [DecodeMapLen_cons, show ((192 : Byte) : Nat) = 192 from rfl]
  refine ⟨h, ?_, ?_⟩
  · unfold Decoder.decodeIntoMapStringString
    rw [h]
    simp
  · unfold Decoder.mapValue
    rw [h]
    simp

/-! ## Range of the decoded length, stream failures, nil payloads -/

theorem uint16_lt (d : Decoder) : (Decoder.uint16 d).1 < 65536 := by
  obtain ⟨r⟩ := d
  rcases r with _ | ⟨b0, _ | ⟨b1, r⟩⟩
  · simp [Decoder.uint16]
  · simp [Decoder.uint16]
  · rw [uint16_cons]
    have h0 := b0.isLt
    have h1 := b1.isLt
    show b0.val * 256 + b1.val < 65536
    omega

theorem uint32_lt (d : Decoder) : (Decoder.uint32 d).1 < 4294967296 := by
  obtain ⟨r⟩ := d
  rcases r with _ | ⟨b0, _ | ⟨b1, _ | ⟨b2, _ | ⟨b3, r⟩⟩⟩⟩
  · simp [Decoder.uint32]
  · simp [Decoder.uint32]
  · simp [Decoder.uint32]
  · simp [Decoder.uint32]
  · rw [uint32_cons]
    have h0 := b0.isLt
    have h1 := b1.isLt
    have h2 := b2.isLt
    have h3 := b3.isLt
    show b0.val * 16777216 + b1.val * 65536 + b2.val * 256 + b3.val < 4294967296
    omega

theorem DecodeMapLen_bounds (c : Byte) (s : List Byte) :
    (c.val = 0xc0 → Decoder.DecodeMapLen ⟨c :: s⟩ = (-1, none, ⟨s⟩)) ∧
    (c.val ≠ 0xc0 → 0 ≤ (Decoder.DecodeMapLen ⟨c :: s⟩).1 ∧
      (Decoder.DecodeMapLen ⟨c :: s⟩).1 < 4294967296) ∧
    (0x80 ≤ c.val → c.val ≤ 0x9f → (Decoder.DecodeMapLen ⟨c :: s⟩).1 ≤ 15) ∧
    (c.val = 0xde ∨ c.val = 0xdc → (Decoder.DecodeMapLen ⟨c :: s⟩).1 ≤ 65535) := by
  have h16 := uint16_lt ⟨s⟩
  have h32 := uint32_lt ⟨s⟩
  rw [DecodeMapLen_cons]
  refine ⟨?_, ?_, ?_, ?_⟩
  · intro h
    rw [if_pos h]
  · intro h
    split_ifs <;> simp only <;> omega
  · intro h0 h1
    split_ifs <;> simp only <;> omega
  · intro h
    split_ifs <;> simp only <;> omega

theorem DecodeMapLen_marker_nonneg (d : Decoder)
    (h : (Decoder.DecodeMapLen d).2.1 = some Error.ErrArrMap) :
    0 ≤ (Decoder.DecodeMapLen d).1 := by
  obtain ⟨r⟩ := d
  rcases r with _ | ⟨c, s⟩
  · simp [DecodeMapLen_nil] at h
  · by_cases hc : c.val = 0xc0
    · rw [(DecodeMapLen_bounds c s).1 hc] at h
      simp at h
    · exact ((DecodeMapLen_bounds c s).2.1 hc).1

/-- C11, the code at the failing input: on the nil tag `0xc0` `decodeMap` has no
`n == -1` test, so it allocates a map and returns it: the result is an empty map,
not the nil interface, while the sibling `decodeIntoMapStringString` leaves a nil
destination nil on the same input. -/
theorem decodeMap_nil_payload_allocates :
    decodeMap (fixintDecodeValue ⟨"interface", Kind.Interface⟩) ⟨[0xc0]⟩
      = (some ∅, none, ⟨[]⟩) ∧
    (decodeMap (fixintDecodeValue ⟨"interface", Kind.Interface⟩) ⟨[0xc0]⟩).1 ≠ none ∧
    Decoder.decodeIntoMapStringString markedDecodeString ⟨[0xc0]⟩ none
      = (none, none, ⟨[]⟩) := by
  decide

/-- C16, the code at the failing inputs: when the input ends right after the array16
or array32 tag, or inside its count bytes, the read error of the count is dropped and
`DecodeMapLen` returns length 0 with `ErrArrMap`, while the map16 and map32 branches
return the read error on the same truncation. -/
theorem DecodeMapLen_truncated_array_count :
    Decoder.uint16 ⟨[]⟩ = (0, some Error.EOF, ⟨[]⟩) ∧
    Decoder.DecodeMapLen ⟨[0xdc]⟩ = (0, some Error.ErrArrMap, ⟨[]⟩) ∧
    Decoder.DecodeMapLen ⟨[0xdc, 0x01]⟩ = (0, some Error.ErrArrMap, ⟨[]⟩) ∧
    Decoder.DecodeMapLen ⟨[0xdd, 0x00, 0x01]⟩ = (0, some Error.ErrArrMap, ⟨[]⟩) ∧
    Decoder.DecodeMapLen ⟨[0xde]⟩ = (0, some Error.EOF, ⟨[]⟩) ∧
    Decoder.DecodeMapLen ⟨[0xdf, 0x00, 0x01]⟩ = (0, some Error.ErrUnexpectedEOF, ⟨[]⟩) := by
  decide

/-- C19: whenever `DecodeMapLen` returns no error or `ErrArrMap`, the length `N`
satisfies `-1 ≤ N < 2^32`; `N = -1` exactly when the tag byte is `0xc0`, and then the
error is nil; `N ≤ 15` for the one-byte forms `0x80..0x9f` and `N ≤ 65535` for the
16-bit forms `0xde` and `0xdc`. -/
theorem DecodeMapLen_range (d : Decoder)
    (h : (Decoder.DecodeMapLen d).2.1 = none ∨
      (Decoder.DecodeMapLen d).2.1 = some Error.ErrArrMap) :
    -1 ≤ (Decoder.DecodeMapLen d).1 ∧ (Decoder.DecodeMapLen d).1 < 2 ^ 32 ∧
    ((Decoder.DecodeMapLen d).1 = -1 ↔ ∃ s : List Byte, d.r = 0xc0 :: s) ∧
    ((Decoder.DecodeMapLen d).1 = -1 → (Decoder.DecodeMapLen d).2.1 = none) ∧
    (∀ (c : Byte) (s : List Byte), d.r = c :: s → 0x80 ≤ c.val → c.val ≤ 0x9f →
      (Decoder.DecodeMapLen d).1 ≤ 15) ∧
    (∀ (c : Byte) (s : List Byte), d.r = c :: s → c = 0xde ∨ c = 0xdc →
      (Decoder.DecodeMapLen d).1 ≤ 65535) := by
  obtain ⟨r⟩ := d
  rcases r with _ | ⟨c, s⟩
  · simp [DecodeMapLen_nil] at h
  · obtain ⟨b1, b2, b3, b4⟩ := DecodeMapLen_bounds c s
    have hc0 : c.val = 0xc0 ↔ ∃ s1 : List Byte, c :: s = 0xc0 :: s1 := by
      constructor
      · intro hc
        exact ⟨s, by rw [show c = 0xc0 from Fin.ext hc]⟩
      · rintro ⟨s1, hs1⟩
        rw [(List.cons.inj hs1).1]
        rfl
    by_cases hc : c.val = 0xc0
    · have hr := b1 hc
      refine ⟨?_, ?_, ?_, ?_, ?_, ?_⟩
      · rw [hr]
      · rw [hr]
        show (-1 : Int) < 2 ^ 32
        decide
      · exact ⟨fun _ => hc0.mp hc, fun _ => by rw [hr]⟩
      · intro _; rw [hr]
      · intro c1 s1 h1 h2 h3
        obtain ⟨rfl, -⟩ := List.cons.inj h1
        omega
      · intro c1 s1 h1 h2
        obtain ⟨rfl, -⟩ := List.cons.inj h1
        rcases h2 with rfl | rfl <;> exact absurd hc (by decide)
    · obtain ⟨h0, h32⟩ := b2 hc
      refine ⟨by omega, by omega, ?_, ?_, ?_, ?_⟩
      · constructor
        · intro hn
          omega
        · intro hs
          exact absurd (hc0.mpr hs) hc
      · intro hn
        omega
      · intro c1 s1 h1 h2 h3
        obtain ⟨rfl, -⟩ := List.cons.inj h1
        exact b3 h2 h3
      · intro c1 s1 h1 h2
        obtain ⟨rfl, -⟩ := List.cons.inj h1
        apply b4
        rcases h2 with rfl | rfl
        · left; rfl
        · right; rfl

/-- Witness of C19 at the input `de 01 2c 07`. -/
theorem DecodeMapLen_range_witness :
    ((Decoder.DecodeMapLen ⟨[0xde, 1, 44, 7]⟩).2.1 = none ∨
      (Decoder.DecodeMapLen ⟨[0xde, 1, 44, 7]⟩).2.1 = some Error.ErrArrMap) ∧
    (Decoder.DecodeMapLen ⟨[0xde, 1, 44, 7]⟩).1 = 300 ∧
    -1 ≤ (Decoder.DecodeMapLen ⟨[0xde, 1, 44, 7]⟩).1 ∧
    (Decoder.DecodeMapLen ⟨[0xde, 1, 44, 7]⟩).1 < 2 ^ 32 :=
  ⟨Or.inl (by decide), by decide,
    (DecodeMapLen_range ⟨[0xde, 1, 44, 7]⟩ (Or.inl (by decide))).1,
    (DecodeMapLen_range ⟨[0xde, 1, 44, 7]⟩ (Or.inl (by decide))).2.1⟩

/-- C20: when `DecodeMapLen` returns `ErrArrMap` and the destination's key kind is not
`int`, `mapValue` returns the key-type error with the reader right after the length
prefix, and the destination is then an allocated map holding its prior entries: a nil
destination has been replaced by an empty allocated map, a non-nil one is unchanged. -/
theorem mapValue_rejected_allocates
    (DecodeValue : Typ → Decoder → Value × Option Error × Decoder)
    (d : Decoder) (v : MapValue)
    (hm : (Decoder.DecodeMapLen d).2.1 = some Error.ErrArrMap)
    (hk : v.keyType.Kind ≠ Kind.Int) :
    Decoder.mapValue DecodeValue d v
      = (some (keyTypeError v.keyType.Kind), { v with m := some v.m.entries },
          (Decoder.DecodeMapLen d).2.2) ∧
    (v.m = none → (Decoder.mapValue DecodeValue d v).2.1.m = some ∅) ∧
    (∀ f : Finmap (fun _ : Value => Value), v.m = some f →
      (Decoder.mapValue DecodeValue d v).2.1 = v) := by
  have hn := DecodeMapLen_marker_nonneg d hm
  have hent : (match v.m with | none => (∅ : Finmap (fun _ : Value => Value)) | some f => f)
      = v.m.entries := by
    cases v.m <;> rfl
  have hrun : Decoder.mapValue DecodeValue d v
      = (some (keyTypeError v.keyType.Kind), { v with m := some v.m.entries },
          (Decoder.DecodeMapLen d).2.2) := by
    unfold Decoder.mapValue
    rcases hd : Decoder.DecodeMapLen d with ⟨n, err, d1⟩
    rw [hd] at hm hn
    simp only at hm hn
    subst hm
    have hn1 : n ≠ -1 := by omega
    simp [hn1, hk, hent]
  refine ⟨hrun, ?_, ?_⟩
  · intro h0
    rw [hrun, h0]
    rfl
  · intro f hf
    rw [hrun]
    obtain ⟨kt, vt, m⟩ := v
    simp only at hf
    subst hf
    rfl

/-- Witness of C20: `91 05` into a nil `map[string]int`. -/
theorem mapValue_rejected_allocates_witness :
    (Decoder.DecodeMapLen ⟨[0x91, 5]⟩).2.1 = some Error.ErrArrMap ∧
    Kind.String ≠ Kind.Int ∧
    Decoder.mapValue fixintDecodeValue ⟨[0x91, 5]⟩
        ⟨⟨"string", Kind.String⟩, ⟨"int", Kind.Int⟩, none⟩
      = (some (keyTypeError Kind.String),
          ⟨⟨"string", Kind.String⟩, ⟨"int", Kind.Int⟩, some ∅⟩, ⟨[5]⟩) :=
  ⟨by decide, by decide,
    (mapValue_rejected_allocates fixintDecodeValue ⟨[0x91, 5]⟩
      ⟨⟨"string", Kind.String⟩, ⟨"int", Kind.Int⟩, none⟩ (by decide) (by decide)).1⟩

/-! ## Decoding map-tagged payloads: last write wins, merging -/

theorem DecodeMapLen_mapHeader {hdr : List Byte} {n : Nat} (h : IsMapHeader hdr n)
    (tail : List Byte) :
    Decoder.DecodeMapLen ⟨hdr ++ tail⟩ = ((n : Int), none, ⟨tail⟩) := by
  rcases h with ⟨hn, rfl⟩ | ⟨b0, b1, rfl, hv⟩ | ⟨b0, b1, b2, b3, rfl, hv⟩
  · have hval : (byteOfNat (0x80 + n)).val = 0x80 + n := by
      rw [byteOfNat_val]; omega
    rw [List.singleton_append, DecodeMapLen_cons, hval, if_neg (by omega), if_neg (by omega),
      if_neg (by omega), if_neg (by omega), if_neg (by omega), if_pos (by omega)]
    have : (0x80 + n) % 16 = n := by omega
    rw [this]
  · rw [← hv]
    simp [DecodeMapLen_cons, uint16_cons, show ((222 : Byte) : Nat) = 222 from rfl]
  · rw [← hv]
    simp [DecodeMapLen_cons, uint32_cons, show ((223 : Byte) : Nat) = 223 from rfl]

theorem lookup_insertAll_last {K V : Type} [DecidableEq K]
    (ps : List (Sigma fun _ : K => V)) (m : Finmap (fun _ : K => V)) (k : K) :
    (insertAll m ps).lookup k = (lastValue ps k).or (m.lookup k) := by
  induction ps generalizing m with
  | nil => simp [insertAll, lastValue]
  | cons p ps ih =>
    obtain ⟨a, b⟩ := p
    have h := ih (m.insert a b)
    simp only [insertAll, List.foldl_cons] at h ⊢
    rw [h]
    simp only [lastValue, List.reverse_cons, List.dlookup_append]
    by_cases hk : k = a
    · subst hk
      rw [Finmap.lookup_insert, List.dlookup_cons_eq]
      cases List.dlookup k ps.reverse <;> rfl
    · rw [Finmap.lookup_insert_of_ne _ hk,
        List.dlookup_cons_ne [] (⟨a, b⟩ : Sigma fun _ : K => V) hk]
      cases List.dlookup k ps.reverse <;> rfl

theorem lastValue_isSome {K V : Type} [DecidableEq K]
    (ps : List (Sigma fun _ : K => V)) (k : K) :
    (lastValue ps k).isSome ↔ k ∈ ps.keys := by
  unfold lastValue
  rw [List.dlookup_isSome]
  simp [List.keys]

theorem decodeIntoMapStringStringLoop_pairs
    (DecodeString : Decoder → GoString × Option Error × Decoder)
    (ps : List (Sigma fun _ : GoString => GoString))
    (m : Finmap (fun _ : GoString => GoString)) (d d1 : Decoder)
    (h : DecodesPairs DecodeString DecodeString ps d d1) :
    Decoder.decodeIntoMapStringStringLoop DecodeString ps.length m d
      = (none, insertAll m ps, d1) := by
  induction ps generalizing m d with
  | nil =>
    simp only [DecodesPairs] at h
    subst h
    rfl
  | cons p ps ih =>
    obtain ⟨k, v⟩ := p
    obtain ⟨d2, d3, hk, hv, hrest⟩ := h
    simp only [List.length_cons, Decoder.decodeIntoMapStringStringLoop, hk, hv,
      ih (m.insert k v) d3 hrest, insertAll, List.foldl_cons]

theorem mapValueLoop_pairs
    (DecodeValue : Typ → Decoder → Value × Option Error × Decoder) (kt vt : Typ)
    (ps : List (Sigma fun _ : Value => Value))
    (m : Finmap (fun _ : Value => Value)) (d d1 : Decoder)
    (hhash : ∀ p ∈ ps, hashable p.1 = true)
    (h : DecodesPairs (DecodeValue kt) (DecodeValue vt) ps d d1) :
    Decoder.mapValueLoop DecodeValue kt vt ps.length m d = (none, insertAll m ps, d1) := by
  induction ps generalizing m d with
  | nil =>
    simp only [DecodesPairs] at h
    subst h
    rfl
  | cons p ps ih =>
    obtain ⟨k, v⟩ := p
    obtain ⟨d2, d3, hk, hv, hrest⟩ := h
    have hkh : hashable k = true := hhash ⟨k, v⟩ (List.mem_cons_self _ _)
    simp only [List.length_cons, Decoder.mapValueLoop, hk, hv, hkh, if_true,
      ih (m.insert k v) d3 (fun q hq => hhash q (List.mem_cons_of_mem _ hq)) hrest,
      insertAll, List.foldl_cons]

theorem decodeMapLoop_pairs
    (DecodeInterface : Decoder → Value × Option Error × Decoder)
    (ps : List (Sigma fun _ : Value => Value))
    (m : Finmap (fun _ : Value => Value)) (d d1 : Decoder)
    (hhash : ∀ p ∈ ps, hashable p.1 = true)
    (h : DecodesPairs DecodeInterface DecodeInterface ps d d1) :
    decodeMapLoop DecodeInterface ps.length m d = (some (insertAll m ps), none, d1) := by
  induction ps generalizing m d with
  | nil =>
    simp only [DecodesPairs] at h
    subst h
    rfl
  | cons p ps ih =>
    obtain ⟨k, v⟩ := p
    obtain ⟨d2, d3, hk, hv, hrest⟩ := h
    have hkh : hashable k = true := hhash ⟨k, v⟩ (List.mem_cons_self _ _)
    simp only [List.length_cons, decodeMapLoop, hk, hv, hkh, if_true,
      ih (m.insert k v) d3 (fun q hq => hhash q (List.mem_cons_of_mem _ hq)) hrest,
      insertAll, List.foldl_cons]

/-- C17: for a map-tagged payload of `n` pairs with hashable keys, each key and value
decoded by `DecodeInterface`, `decodeMap` returns a new map that sends every key of
the payload to the value of the last pair carrying it and holds no other key; its size
is the number of distinct keys, at most `n`. -/
theorem decodeMap_last_write_wins
    (DecodeInterface : Decoder → Value × Option Error × Decoder)
    (hdr : List Byte) (ps : List (Sigma fun _ : Value => Value))
    (hh : IsMapHeader hdr ps.length) (tail : List Byte) (d1 : Decoder)
    (hdec : DynamicPairs DecodeInterface ps ⟨tail⟩ d1) :
    ∃ m : Finmap (fun _ : Value => Value),
      decodeMap DecodeInterface ⟨hdr ++ tail⟩ = (some m, none, d1) ∧
      (∀ k : Value, m.lookup k = lastValue ps k) ∧
      (∀ k : Value, k ∈ m ↔ k ∈ ps.keys) ∧
      m.keys.card = ps.keys.dedup.length ∧
      m.keys.card ≤ ps.length := by
  have hlook : ∀ k : Value, (insertAll ∅ ps).lookup k = lastValue ps k := by
    intro k
    rw [lookup_insertAll_last, Finmap.lookup_empty]
    cases lastValue ps k <;> rfl
  have hmem : ∀ k : Value, k ∈ insertAll ∅ ps ↔ k ∈ ps.keys := by
    intro k
    rw [← Finmap.lookup_isSome, hlook, lastValue_isSome]
  have hkeys : (insertAll ∅ ps).keys = ps.keys.toFinset := by
    ext k
    rw [Finmap.mem_keys, hmem, List.mem_toFinset]
  refine ⟨insertAll ∅ ps, ?_, hlook, hmem, ?_, ?_⟩
  · unfold decodeMap
    rw [DecodeMapLen_mapHeader hh]
    simp only [Int.toNat_ofNat]
    exact decodeMapLoop_pairs DecodeInterface ps ∅ ⟨tail⟩ d1 hdec.1 hdec.2
  · rw [hkeys, List.card_toFinset]
  · rw [hkeys]
    calc ps.keys.toFinset.card ≤ ps.keys.length := List.toFinset_card_le _
      _ = ps.length := by simp [List.keys]

/-- Witness of C17: the payload `82 01 05 01 06`, two pairs with the same key. -/
theorem decodeMap_last_write_wins_witness :
    IsMapHeader [0x82] [(⟨Value.int 1, Value.int 5⟩ : Sigma fun _ : Value => Value),
      ⟨Value.int 1, Value.int 6⟩].length ∧
    DynamicPairs (fixintDecodeValue ⟨"interface", Kind.Interface⟩)
      [⟨Value.int 1, Value.int 5⟩, ⟨Value.int 1, Value.int 6⟩] ⟨[1, 5, 1, 6]⟩ ⟨[]⟩ ∧
    ∃ m : Finmap (fun _ : Value => Value),
      decodeMap (fixintDecodeValue ⟨"interface", Kind.Interface⟩) ⟨[0x82] ++ [1, 5, 1, 6]⟩
        = (some m, none, ⟨[]⟩) ∧
      (∀ k : Value, m.lookup k
        = lastValue [⟨Value.int 1, Value.int 5⟩, ⟨Value.int 1, Value.int 6⟩] k) ∧
      (∀ k : Value, k ∈ m ↔
        k ∈ List.keys [(⟨Value.int 1, Value.int 5⟩ : Sigma fun _ : Value => Value),
          ⟨Value.int 1, Value.int 6⟩]) ∧
      m.keys.card = (List.keys [(⟨Value.int 1, Value.int 5⟩ : Sigma fun _ : Value => Value),
          ⟨Value.int 1, Value.int 6⟩]).dedup.length ∧
      m.keys.card ≤ [(⟨Value.int 1, Value.int 5⟩ : Sigma fun _ : Value => Value),
          ⟨Value.int 1, Value.int 6⟩].length :=
  ⟨Or.inl ⟨by decide, by decide⟩,
    ⟨by decide, ⟨[5, 1, 6]⟩, ⟨[1, 6]⟩, rfl, rfl, ⟨[6]⟩, ⟨[]⟩, rfl, rfl, rfl⟩,
    decodeMap_last_write_wins (fixintDecodeValue ⟨"interface", Kind.Interface⟩) [0x82]
      [⟨Value.int 1, Value.int 5⟩, ⟨Value.int 1, Value.int 6⟩]
      (Or.inl ⟨by decide, by decide⟩) [1, 5, 1, 6] ⟨[]⟩
      ⟨by decide, ⟨[5, 1, 6]⟩, ⟨[1, 6]⟩, rfl, rfl, ⟨[6]⟩, ⟨[]⟩, rfl, rfl, rfl⟩⟩

/-- C18: for a map-tagged payload of pairs (for `mapValue` with hashable keys),
`decodeIntoMapStringString` and `mapValue` (on the plain-map path) succeed and leave
the destination allocated, with every key looked up to its last value in the payload
if it occurs there and to its prior value in the destination otherwise; a nil
destination has no prior entries and ends up holding exactly the entries of the
payload. -/
theorem decode_merges_into_destination
    (DecodeString : Decoder → GoString × Option Error × Decoder)
    (DecodeValue : Typ → Decoder → Value × Option Error × Decoder)
    (hdr : List Byte) (ps : List (Sigma fun _ : GoString => GoString))
    (hh : IsMapHeader hdr ps.length) (tail : List Byte) (d1 : Decoder)
    (hdec : DecodesPairs DecodeString DecodeString ps ⟨tail⟩ d1)
    (mp : GoMap GoString GoString)
    (v : MapValue) (hdr2 : List Byte) (qs : List (Sigma fun _ : Value => Value))
    (hh2 : IsMapHeader hdr2 qs.length) (hq : ∀ p ∈ qs, hashable p.1 = true)
    (tail2 : List Byte) (d2 : Decoder)
    (hdec2 : DecodesPairs (DecodeValue v.keyType) (DecodeValue v.valueType) qs ⟨tail2⟩ d2) :
    (∃ m : Finmap (fun _ : GoString => GoString),
      Decoder.decodeIntoMapStringString DecodeString ⟨hdr ++ tail⟩ mp = (none, some m, d1) ∧
      ∀ k : GoString, m.lookup k = (lastValue ps k).or (mp.entries.lookup k)) ∧
    (∃ m : Finmap (fun _ : Value => Value),
      Decoder.mapValue DecodeValue ⟨hdr2 ++ tail2⟩ v = (none, { v with m := some m }, d2) ∧
      ∀ k : Value, m.lookup k = (lastValue qs k).or (v.m.entries.lookup k)) := by
  constructor
  · refine ⟨insertAll mp.entries ps, ?_, lookup_insertAll_last ps mp.entries⟩
    have hent : (match mp with
        | none => (∅ : Finmap (fun _ : GoString => GoString)) | some f => f) = mp.entries := by
      cases mp <;> rfl
    unfold Decoder.decodeIntoMapStringString
    rw [DecodeMapLen_mapHeader hh]
    have hne : ((ps.length : Nat) : Int) ≠ -1 := by omega
    simp only [if_neg hne, Int.toNat_ofNat, hent,
      decodeIntoMapStringStringLoop_pairs DecodeString ps mp.entries ⟨tail⟩ d1 hdec]
  · refine ⟨insertAll v.m.entries qs, ?_, lookup_insertAll_last qs v.m.entries⟩
    have hent : (match v.m with
        | none => (∅ : Finmap (fun _ : Value => Value)) | some f => f) = v.m.entries := by
      cases v.m <;> rfl
    unfold Decoder.mapValue
    rw [DecodeMapLen_mapHeader hh2]
    have hne : ((qs.length : Nat) : Int) ≠ -1 := by omega
    simp [hne, hent,
      mapValueLoop_pairs DecodeValue v.keyType v.valueType qs v.m.entries ⟨tail2⟩ d2 hq hdec2]

/-- Witness of C18: the pair `[1] ↦ [9]` decoded into the sample text-to-text map, and
the pair `1 ↦ 5` decoded into a `map[int]int` holding `1 ↦ 0` and `2 ↦ 7`. -/
theorem decode_merges_into_destination_witness :
    (∃ m : Finmap (fun _ : GoString => GoString),
      Decoder.decodeIntoMapStringString markedDecodeString
          ⟨[0x81] ++ [1, 1, 0, 1, 9, 0]⟩ sampleMap = (none, some m, ⟨[]⟩) ∧
      ∀ k : GoString, m.lookup k
        = (lastValue [(⟨[1], [9]⟩ : Sigma fun _ : GoString => GoString)] k).or
            (sampleMap.entries.lookup k)) ∧
    (∃ m : Finmap (fun _ : Value => Value),
      Decoder.mapValue fixintDecodeValue ⟨[0x81] ++ [1, 5]⟩
          ⟨⟨"int", Kind.Int⟩, ⟨"int", Kind.Int⟩,
            some ((∅ : Finmap (fun _ : Value => Value)).insert (Value.int 1) (Value.int 0)
              |>.insert (Value.int 2) (Value.int 7))⟩
        = (none, { (⟨⟨"int", Kind.Int⟩, ⟨"int", Kind.Int⟩,
            some ((∅ : Finmap (fun _ : Value => Value)).insert (Value.int 1) (Value.int 0)
              |>.insert (Value.int 2) (Value.int 7))⟩ : MapValue) with m := some m }, ⟨[]⟩) ∧
      ∀ k : Value, m.lookup k
        = (lastValue [(⟨Value.int 1, Value.int 5⟩ : Sigma fun _ : Value => Value)] k).or
            ((GoMap.entries (some ((∅ : Finmap (fun _ : Value => Value)).insert
              (Value.int 1) (Value.int 0) |>.insert (Value.int 2) (Value.int 7)))).lookup k)) :=
  decode_merges_into_destination markedDecodeString fixintDecodeValue
    [0x81] [⟨[1], [9]⟩] (Or.inl ⟨by decide, by decide⟩) [1, 1, 0, 1, 9, 0] ⟨[]⟩
    ⟨⟨[1, 9, 0]⟩, ⟨[]⟩, rfl, rfl, rfl⟩ sampleMap
    ⟨⟨"int", Kind.Int⟩, ⟨"int", Kind.Int⟩,
      some ((∅ : Finmap (fun _ : Value => Value)).insert (Value.int 1) (Value.int 0)
        |>.insert (Value.int 2) (Value.int 7))⟩
    [0x81] [⟨Value.int 1, Value.int 5⟩] (Or.inl ⟨by decide, by decide⟩) (by decide) [1, 5] ⟨[]⟩
    ⟨⟨[5]⟩, ⟨[]⟩, rfl, rfl, rfl⟩

/-! ## The record encoder -/

theorem encodeStructCount_eq {S : Type} (strct : S)
    (order : List (Sigma fun _ : GoString => field S)) (acc : Int) :
    Encoder.encodeStructCount strct order acc = acc + (keptFields strct order).length := by
  induction order generalizing acc with
  | nil => simp [Encoder.encodeStructCount, keptFields]
  | cons p rest ih =>
    obtain ⟨name, f⟩ := p
    unfold keptFields at ih ⊢
    by_cases ho : f.Omit strct = true
    · simp [Encoder.encodeStructCount, ho, ih]
    · simp only [Bool.not_eq_true] at ho
      simp [Encoder.encodeStructCount, ho, ih]
      omega

theorem keptFields_card {S : Type} (fields : Finmap (fun _ : GoString => field S)) (strct : S)
    (order : List (Sigma fun _ : GoString => field S)) (h : IsFieldOrder fields order) :
    (keptFields strct order).length
      = Multiset.card (fields.entries.filter (fun p => p.2.Omit strct = false)) := by
  unfold IsFieldOrder at h
  rw [← h, Multiset.filter_coe, Multiset.coe_card]
  unfold keptFields
  congr 1
  apply List.filter_congr
  intro p _
  cases p.2.Omit strct <;> rfl

theorem keptFields_perm {S : Type} (fields : Finmap (fun _ : GoString => field S)) (strct : S)
    (order order1 : List (Sigma fun _ : GoString => field S))
    (h : IsFieldOrder fields order) (h1 : IsFieldOrder fields order1) :
    (keptFields strct order).Perm (keptFields strct order1) := by
  unfold IsFieldOrder at h h1
  have hp : order.Perm order1 := Multiset.coe_eq_coe.mp (h.trans h1.symm)
  exact hp.filter _

theorem mem_fieldOrder {S : Type} (fields : Finmap (fun _ : GoString => field S))
    (order : List (Sigma fun _ : GoString => field S)) (h : IsFieldOrder fields order)
    (name : GoString) (f : field S) :
    (⟨name, f⟩ : Sigma fun _ : GoString => field S) ∈ order ↔ fields.lookup name = some f := by
  unfold IsFieldOrder at h
  rw [Finmap.lookup_eq_some_iff, ← h, Multiset.mem_coe]

theorem nodupKeys_fieldOrder {S : Type} (fields : Finmap (fun _ : GoString => field S))
    (order : List (Sigma fun _ : GoString => field S)) (h : IsFieldOrder fields order) :
    order.NodupKeys := by
  have := fields.nodupKeys
  unfold IsFieldOrder at h
  rw [← h] at this
  exact Multiset.coe_nodupKeys.mp this

theorem encodeStructLoop_eq {S : Type}
    (EncodeString : Encoder → GoString → Option Error × Encoder)
    (sb : GoString → List Byte) (fb : GoString → S → List Byte)
    (hES : WritesString EncodeString sb) (strct : S)
    (order : List (Sigma fun _ : GoString => field S))
    (hEF : ∀ p ∈ order, ∀ (e : Encoder), e.werr = none →
      p.2.EncodeValue e strct = (none, ⟨e.w ++ fb p.1 strct, none⟩))
    (e : Encoder) (he : e.werr = none) :
    Encoder.encodeStructLoop EncodeString strct order e
      = (none, ⟨e.w ++ pairBytes sb fb strct (keptFields strct order), none⟩) := by
  induction order generalizing e with
  | nil =>
    obtain ⟨w, werr⟩ := e
    simp only at he
    subst he
    simp [Encoder.encodeStructLoop, pairBytes, keptFields]
  | cons p rest ih =>
    obtain ⟨name, f⟩ := p
    have ih1 := ih (fun q hq => hEF q (List.mem_cons_of_mem _ hq))
    by_cases ho : f.Omit strct = true
    · have hk : keptFields strct (⟨name, f⟩ :: rest) = keptFields strct rest := by
        simp [keptFields, ho]
      rw [hk]
      simp only [Encoder.encodeStructLoop, ho, if_true]
      exact ih1 e he
    · simp only [Bool.not_eq_true] at ho
      have hk : keptFields strct (⟨name, f⟩ :: rest)
          = ⟨name, f⟩ :: keptFields strct rest := by
        simp [keptFields, ho]
      have hv := hEF ⟨name, f⟩ (List.mem_cons_self _ _) ⟨e.w ++ sb name, none⟩ rfl
      simp only at hv
      rw [hk]
      simp only [Encoder.encodeStructLoop, ho, hES e name he, hv, Bool.false_eq_true,
        if_false]
      rw [ih1 ⟨e.w ++ sb name ++ fb name strct, none⟩ rfl]
      simp [pairBytes, List.append_assoc]

theorem encodeStruct_eq {S : Type}
    (EncodeString : Encoder → GoString → Option Error × Encoder)
    (sb : GoString → List Byte) (fb : GoString → S → List Byte)
    (fields : Finmap (fun _ : GoString => field S))
    (hES : WritesString EncodeString sb) (hEF : WritesFields fields fb)
    (e : Encoder) (he : e.werr = none) (strct : S)
    (order1 order2 : List (Sigma fun _ : GoString => field S))
    (h1 : IsFieldOrder fields order1) (h2 : IsFieldOrder fields order2) :
    Encoder.encodeStruct EncodeString e strct order1 order2
      = (none, ⟨e.w ++ mapLenBytes (keptFields strct order2).length
          ++ pairBytes sb fb strct (keptFields strct order2), none⟩) := by
  have hc : Encoder.encodeStructCount strct order1 0
      = ((keptFields strct order2).length : Int) := by
    rw [encodeStructCount_eq, keptFields_card fields strct order1 h1,
      keptFields_card fields strct order2 h2]
    simp
  unfold Encoder.encodeStruct
  rw [hc, encodeMapLen_eq e he]
  simp only
  rw [encodeStructLoop_eq EncodeString sb fb hES strct order2 _ _ rfl]
  intro p hp e1 he1
  obtain ⟨name, f⟩ := p
  exact hEF name f ((mem_fieldOrder fields order2 h2 name f).mp hp) e1 strct he1

theorem marked_writes : WritesString markedEncodeString markedBytes := by
  intro e s he
  obtain ⟨w, werr⟩ := e
  simp only at he
  subst he
  simp [markedEncodeString, Encoder.write]

theorem sampleFields_lookup (name : GoString) (f : field SampleRecord)
    (h : sampleFields.lookup name = some f) :
    (name = [0x41] ∧ f = fieldA) ∨ (name = [0x42] ∧ f = fieldB) := by
  unfold sampleFields at h
  by_cases hb : name = [0x42]
  · subst hb
    rw [Finmap.lookup_insert] at h
    exact Or.inr ⟨rfl, (Option.some.inj h).symm⟩
  · rw [Finmap.lookup_insert_of_ne _ hb] at h
    by_cases ha : name = [0x41]
    · subst ha
      rw [Finmap.lookup_insert] at h
      exact Or.inl ⟨rfl, (Option.some.inj h).symm⟩
    · rw [Finmap.lookup_insert_of_ne _ ha, Finmap.lookup_empty] at h
      exact absurd h (by simp)

theorem sample_writes : WritesFields sampleFields sampleFieldBytes := by
  intro name f h e r he
  obtain ⟨w, werr⟩ := e
  simp only at he
  subst he
  rcases sampleFields_lookup name f h with ⟨rfl, rfl⟩ | ⟨rfl, rfl⟩
  · simp [fieldA, Encoder.write, sampleFieldBytes]
  · simp [fieldB, Encoder.write, sampleFieldBytes]

theorem sample_order_BA :
    IsFieldOrder sampleFields [⟨[0x42], fieldB⟩, ⟨[0x41], fieldA⟩] := rfl

theorem sample_order_AB :
    IsFieldOrder sampleFields [⟨[0x41], fieldA⟩, ⟨[0x42], fieldB⟩] := by
  unfold IsFieldOrder
  rw [← sample_order_BA]
  exact Multiset.coe_eq_coe.mpr (List.Perm.swap _ _ _)

/-- C14: when `EncodeString` and the fields' bound encode functions append the wire
forms of their arguments, `encodeStruct` on a working stream writes the map length of
the number of fields that are not omitted, followed by the name and value of each such
field: the pairs written are as many as that count, they are distinct fields, and a
field is among them exactly when it is a field of the type that is not omitted. The
length written reads back as that count when it is below `2^32`. -/
theorem encodeStruct_header_and_pairs {S : Type}
    (EncodeString : Encoder → GoString → Option Error × Encoder)
    (sb : GoString → List Byte) (fb : GoString → S → List Byte)
    (fields : Finmap (fun _ : GoString => field S))
    (hES : WritesString EncodeString sb) (hEF : WritesFields fields fb)
    (e : Encoder) (he : e.werr = none) (strct : S)
    (order1 order2 : List (Sigma fun _ : GoString => field S))
    (h1 : IsFieldOrder fields order1) (h2 : IsFieldOrder fields order2) :
    Encoder.encodeStruct EncodeString e strct order1 order2
      = (none, ⟨e.w ++ mapLenBytes (keptFields strct order2).length
          ++ pairBytes sb fb strct (keptFields strct order2), none⟩) ∧
    (keptFields strct order2).length
      = Multiset.card (fields.entries.filter (fun p => p.2.Omit strct = false)) ∧
    (keptFields strct order2).NodupKeys ∧
    (∀ (name : GoString) (f : field S),
      (⟨name, f⟩ : Sigma fun _ : GoString => field S) ∈ keptFields strct order2
        ↔ fields.lookup name = some f ∧ f.Omit strct = false) ∧
    (((keptFields strct order2).length : Int) < 2 ^ 32 → ∀ rest : List Byte,
      Decoder.DecodeMapLen ⟨mapLenBytes (keptFields strct order2).length ++ rest⟩
        = (((keptFields strct order2).length : Int), none, ⟨rest⟩)) := by
  refine ⟨encodeStruct_eq EncodeString sb fb fields hES hEF e he strct order1 order2 h1 h2,
    keptFields_card fields strct order2 h2, ?_, ?_, ?_⟩
  · exact (nodupKeys_fieldOrder fields order2 h2).sublist (List.filter_sublist _)
  · intro name f
    unfold keptFields
    rw [List.mem_filter, mem_fieldOrder fields order2 h2]
    simp
  · intro hlt rest
    exact DecodeMapLen_mapLenBytes (Int.ofNat_nonneg _) hlt rest

/-- Witness of C14: the sample record with `A = 5` and `B = 0` (so `B` is omitted),
written with the marked string codec. -/
theorem encodeStruct_header_and_pairs_witness :
    Encoder.encodeStruct markedEncodeString ⟨[], none⟩ (⟨5, 0⟩ : SampleRecord)
        [⟨[0x41], fieldA⟩, ⟨[0x42], fieldB⟩] [⟨[0x42], fieldB⟩, ⟨[0x41], fieldA⟩]
      = (none, ⟨[] ++ mapLenBytes (keptFields (⟨5, 0⟩ : SampleRecord)
            [⟨[0x42], fieldB⟩, ⟨[0x41], fieldA⟩]).length
          ++ pairBytes markedBytes sampleFieldBytes (⟨5, 0⟩ : SampleRecord)
            (keptFields (⟨5, 0⟩ : SampleRecord) [⟨[0x42], fieldB⟩, ⟨[0x41], fieldA⟩]), none⟩) ∧
    (Encoder.encodeStruct markedEncodeString ⟨[], none⟩ (⟨5, 0⟩ : SampleRecord)
        [⟨[0x41], fieldA⟩, ⟨[0x42], fieldB⟩] [⟨[0x42], fieldB⟩, ⟨[0x41], fieldA⟩]).2.w
      = [0x81, 1, 0x41, 0, 5] :=
  ⟨(encodeStruct_header_and_pairs markedEncodeString markedBytes sampleFieldBytes sampleFields
      marked_writes sample_writes ⟨[], none⟩ rfl (⟨5, 0⟩ : SampleRecord)
      [⟨[0x41], fieldA⟩, ⟨[0x42], fieldB⟩] [⟨[0x42], fieldB⟩, ⟨[0x41], fieldA⟩]
      sample_order_AB sample_order_BA).1, by decide⟩

/-- C15, counterexample: the two fields of the sample record can be visited by `range`
in two orders, and two encodes of the same record `A = 5, B = 6` that differ in this
order write different byte sequences. -/
theorem encodeStruct_order_not_fixed :
    IsFieldOrder sampleFields [⟨[0x41], fieldA⟩, ⟨[0x42], fieldB⟩] ∧
    IsFieldOrder sampleFields [⟨[0x42], fieldB⟩, ⟨[0x41], fieldA⟩] ∧
    (Encoder.encodeStruct markedEncodeString ⟨[], none⟩ (⟨5, 6⟩ : SampleRecord)
        [⟨[0x41], fieldA⟩, ⟨[0x42], fieldB⟩] [⟨[0x41], fieldA⟩, ⟨[0x42], fieldB⟩]).2.w
      = [0x82, 1, 0x41, 0, 5, 1, 0x42, 0, 6] ∧
    (Encoder.encodeStruct markedEncodeString ⟨[], none⟩ (⟨5, 6⟩ : SampleRecord)
        [⟨[0x41], fieldA⟩, ⟨[0x42], fieldB⟩] [⟨[0x42], fieldB⟩, ⟨[0x41], fieldA⟩]).2.w
      = [0x82, 1, 0x42, 0, 6, 1, 0x41, 0, 5] ∧
    Encoder.encodeStruct markedEncodeString ⟨[], none⟩ (⟨5, 6⟩ : SampleRecord)
        [⟨[0x41], fieldA⟩, ⟨[0x42], fieldB⟩] [⟨[0x41], fieldA⟩, ⟨[0x42], fieldB⟩]
      ≠ Encoder.encodeStruct markedEncodeString ⟨[], none⟩ (⟨5, 6⟩ : SampleRecord)
        [⟨[0x41], fieldA⟩, ⟨[0x42], fieldB⟩] [⟨[0x42], fieldB⟩, ⟨[0x41], fieldA⟩] :=
  ⟨sample_order_AB, sample_order_BA, by decide, by decide, by decide⟩

/-- C15, amended: `encodeStruct` writes the pairs of the fields that are not omitted
in the order in which the second `range` loop visits the field descriptors. Two encodes
of the same record write the same map length and the same pairs up to their order, and
the same byte sequence whenever `range` visits the descriptors in the same order. -/
theorem encodeStruct_pairs_in_range_order {S : Type}
    (EncodeString : Encoder → GoString → Option Error × Encoder)
    (sb : GoString → List Byte) (fb : GoString → S → List Byte)
    (fields : Finmap (fun _ : GoString => field S))
    (hES : WritesString EncodeString sb) (hEF : WritesFields fields fb)
    (e : Encoder) (he : e.werr = none) (strct : S)
    (order1 order2 order3 order4 : List (Sigma fun _ : GoString => field S))
    (h1 : IsFieldOrder fields order1) (h2 : IsFieldOrder fields order2)
    (h3 : IsFieldOrder fields order3) (h4 : IsFieldOrder fields order4) :
    ∃ hdr : List Byte,
      Encoder.encodeStruct EncodeString e strct order1 order2
        = (none, ⟨e.w ++ hdr ++ pairBytes sb fb strct (keptFields strct order2), none⟩) ∧
      Encoder.encodeStruct EncodeString e strct order3 order4
        = (none, ⟨e.w ++ hdr ++ pairBytes sb fb strct (keptFields strct order4), none⟩) ∧
      (keptFields strct order2).Perm (keptFields strct order4) ∧
      (order2 = order4 →
        Encoder.encodeStruct EncodeString e strct order1 order2
          = Encoder.encodeStruct EncodeString e strct order3 order4) := by
  have hp := keptFields_perm fields strct order2 order4 h2 h4
  have e12 := encodeStruct_eq EncodeString sb fb fields hES hEF e he strct order1 order2 h1 h2
  have e34 := encodeStruct_eq EncodeString sb fb fields hES hEF e he strct order3 order4 h3 h4
  refine ⟨mapLenBytes (keptFields strct order2).length, e12, ?_, hp, ?_⟩
  · rw [e34, hp.length_eq]
  · intro h
    rw [e12, e34, h]

/-- Witness of C15 (amended): the sample record `A = 5, B = 6` with the two visiting
orders of its fields. -/
theorem encodeStruct_pairs_in_range_order_witness :
    ∃ hdr : List Byte,
      Encoder.encodeStruct markedEncodeString ⟨[], none⟩ (⟨5, 6⟩ : SampleRecord)
          [⟨[0x41], fieldA⟩, ⟨[0x42], fieldB⟩] [⟨[0x41], fieldA⟩, ⟨[0x42], fieldB⟩]
        = (none, ⟨[] ++ hdr ++ pairBytes markedBytes sampleFieldBytes (⟨5, 6⟩ : SampleRecord)
            (keptFields (⟨5, 6⟩ : SampleRecord) [⟨[0x41], fieldA⟩, ⟨[0x42], fieldB⟩]), none⟩) ∧
      Encoder.encodeStruct markedEncodeString ⟨[], none⟩ (⟨5, 6⟩ : SampleRecord)
          [⟨[0x42], fieldB⟩, ⟨[0x41], fieldA⟩] [⟨[0x42], fieldB⟩, ⟨[0x41], fieldA⟩]
        = (none, ⟨[] ++ hdr ++ pairBytes markedBytes sampleFieldBytes (⟨5, 6⟩ : SampleRecord)
            (keptFields (⟨5, 6⟩ : SampleRecord) [⟨[0x42], fieldB⟩, ⟨[0x41], fieldA⟩]), none⟩) ∧
      (keptFields (⟨5, 6⟩ : SampleRecord) [⟨[0x41], fieldA⟩, ⟨[0x42], fieldB⟩]).Perm
        (keptFields (⟨5, 6⟩ : SampleRecord) [⟨[0x42], fieldB⟩, ⟨[0x41], fieldA⟩]) ∧
      (([⟨[0x41], fieldA⟩, ⟨[0x42], fieldB⟩] : List (Sigma fun _ : GoString => field SampleRecord))
          = [⟨[0x42], fieldB⟩, ⟨[0x41], fieldA⟩] →
        Encoder.encodeStruct markedEncodeString ⟨[], none⟩ (⟨5, 6⟩ : SampleRecord)
            [⟨[0x41], fieldA⟩, ⟨[0x42], fieldB⟩] [⟨[0x41], fieldA⟩, ⟨[0x42], fieldB⟩]
          = Encoder.encodeStruct markedEncodeString ⟨[], none⟩ (⟨5, 6⟩ : SampleRecord)
            [⟨[0x42], fieldB⟩, ⟨[0x41], fieldA⟩] [⟨[0x42], fieldB⟩, ⟨[0x41], fieldA⟩]) :=
  encodeStruct_pairs_in_range_order markedEncodeString markedBytes sampleFieldBytes sampleFields
    marked_writes sample_writes ⟨[], none⟩ rfl (⟨5, 6⟩ : SampleRecord)
    [⟨[0x41], fieldA⟩, ⟨[0x42], fieldB⟩] [⟨[0x41], fieldA⟩, ⟨[0x42], fieldB⟩]
    [⟨[0x42], fieldB⟩, ⟨[0x41], fieldA⟩] [⟨[0x42], fieldB⟩, ⟨[0x41], fieldA⟩]
    sample_order_AB sample_order_AB sample_order_BA sample_order_BA

/-! ## The record decoder -/

theorem structValueLoop_entries {S : Type} (fields : Finmap (fun _ : GoString => field S))
    (DecodeString : Decoder → GoString × Option Error × Decoder)
    (DecodeInterface : Decoder → Value × Option Error × Decoder)
    (entries : List WireEntry)
    (hwf : ∀ en ∈ entries, WellFormedEntry fields DecodeString DecodeInterface en)
    (strct : S) (rest : List Byte) :
    Decoder.structValueLoop fields DecodeString DecodeInterface entries.length strct
        ⟨entryBytes entries ++ rest⟩
      = (none, applyEntries fields entries strct, ⟨rest⟩) := by
  induction entries generalizing strct with
  | nil => rfl
  | cons en es ih =>
    have ih1 := ih (fun x hx => hwf x (List.mem_cons_of_mem _ hx))
    obtain ⟨hkey, hval⟩ := hwf en (List.mem_cons_self _ _)
    simp only [List.length_cons, entryBytes, List.append_assoc, Decoder.structValueLoop, hkey,
      applyEntries]
    cases hl : fields.lookup en.name with
    | some f =>
      rw [hl] at hval
      simp only [hval, ih1]
    | none =>
      rw [hl] at hval
      obtain ⟨x, hx⟩ := hval (entryBytes es ++ rest)
      simp only [hx, ih1]

theorem applyEntries_filter {S : Type} (fields : Finmap (fun _ : GoString => field S))
    (entries : List WireEntry) (strct : S) :
    applyEntries fields (entries.filter (isKnown fields)) strct
      = applyEntries fields entries strct := by
  induction entries generalizing strct with
  | nil => rfl
  | cons en es ih =>
    cases hl : fields.lookup en.name with
    | some f =>
      have hk : isKnown fields en = true := by simp [isKnown, hl]
      simp only [List.filter_cons, hk, if_true, applyEntries, hl, ih]
    | none =>
      have hk : isKnown fields en = false := by simp [isKnown, hl]
      simp only [List.filter_cons, hk, applyEntries, hl]
      exact ih strct

theorem applyEntries_frame {S V : Type} (fields : Finmap (fun _ : GoString => field S))
    (get : GoString → S → V) (hframe : DecodesOwnField fields get)
    (entries : List WireEntry) (strct : S) (name : GoString)
    (habs : ∀ en ∈ entries, en.name ≠ name) :
    get name (applyEntries fields entries strct) = get name strct := by
  induction entries generalizing strct with
  | nil => rfl
  | cons en es ih =>
    have ih1 : ∀ s : S, get name (applyEntries fields es s) = get name s :=
      fun s => ih s (fun x hx => habs x (List.mem_cons_of_mem _ hx))
    have hne : name ≠ en.name := fun h => habs en (List.mem_cons_self _ _) h.symm
    cases hl : fields.lookup en.name with
    | some f =>
      simp only [applyEntries, hl]
      rw [ih1, hframe en.name f hl _ _ name hne]
    | none =>
      simp only [applyEntries, hl]
      exact ih1 strct

/-- C12: for a map payload of well-formed entries, `structValue` succeeds and consumes
the whole payload; the record it leaves is the one obtained by running the bound decode
function of exactly the entries whose key names a field, in payload order, and it is
the same record that the payload without the unknown entries decodes to; a field that
no entry names keeps its prior value. -/
theorem structValue_forward_compatible {S V : Type}
    (fields : Finmap (fun _ : GoString => field S))
    (DecodeString : Decoder → GoString × Option Error × Decoder)
    (DecodeInterface : Decoder → Value × Option Error × Decoder)
    (get : GoString → S → V) (hframe : DecodesOwnField fields get)
    (hdr : List Byte) (entries : List WireEntry) (hh : IsMapHeader hdr entries.length)
    (hwf : ∀ en ∈ entries, WellFormedEntry fields DecodeString DecodeInterface en)
    (hdr2 : List Byte) (hh2 : IsMapHeader hdr2 (entries.filter (isKnown fields)).length)
    (strct : S) (rest : List Byte) :
    Decoder.structValue fields DecodeString DecodeInterface
        ⟨hdr ++ entryBytes entries ++ rest⟩ strct
      = (none, applyEntries fields entries strct, ⟨rest⟩) ∧
    Decoder.structValue fields DecodeString DecodeInterface
        ⟨hdr2 ++ entryBytes (entries.filter (isKnown fields)) ++ rest⟩ strct
      = (none, applyEntries fields entries strct, ⟨rest⟩) ∧
    (∀ name : GoString, (∀ en ∈ entries, en.name ≠ name) →
      get name (applyEntries fields entries strct) = get name strct) := by
  refine ⟨?_, ?_, ?_⟩
  · unfold Decoder.structValue
    rw [List.append_assoc, DecodeMapLen_mapHeader hh]
    simp only [Int.toNat_ofNat]
    exact structValueLoop_entries fields DecodeString DecodeInterface entries hwf strct rest
  · unfold Decoder.structValue
    rw [List.append_assoc, DecodeMapLen_mapHeader hh2]
    simp only [Int.toNat_ofNat]
    rw [structValueLoop_entries fields DecodeString DecodeInterface _
      (fun en hen => hwf en (List.mem_of_mem_filter hen)) strct rest,
      applyEntries_filter]
  · intro name habs
    exact applyEntries_frame fields get hframe entries strct name habs

theorem sampleFields_lookup_A : sampleFields.lookup [0x41] = some fieldA := by
  unfold sampleFields
  rw [Finmap.lookup_insert_of_ne _ (by decide), Finmap.lookup_insert]

theorem sampleFields_lookup_B : sampleFields.lookup [0x42] = some fieldB := by
  unfold sampleFields
  rw [Finmap.lookup_insert]

theorem sampleFields_lookup_X : sampleFields.lookup [0x58] = none := by
  unfold sampleFields
  rw [Finmap.lookup_insert_of_ne _ (by decide), Finmap.lookup_insert_of_ne _ (by decide),
    Finmap.lookup_empty]

theorem sample_frame : DecodesOwnField sampleFields sampleGet := by
  intro name f h d s other hne
  obtain ⟨r⟩ := d
  rcases sampleFields_lookup name f h with ⟨rfl, rfl⟩ | ⟨rfl, rfl⟩
  · cases r <;> simp [fieldA, Decoder.ReadByte, sampleGet, hne]
  · by_cases ha : other = [0x41]
    · cases r <;> simp [fieldB, Decoder.ReadByte, sampleGet, ha]
    · cases r <;> simp [fieldB, Decoder.ReadByte, sampleGet, ha, hne]

theorem sampleEntryA_wf :
    WellFormedEntry sampleFields markedDecodeString
      (fixintDecodeValue ⟨"interface", Kind.Interface⟩) sampleEntryA := by
  refine ⟨fun rest => by simp [sampleEntryA, markedDecodeString, markedParse_markedBytes], ?_⟩
  show match sampleFields.lookup [0x41] with
    | some f => ∀ (s : SampleRecord) (rest : List Byte),
        f.DecodeValue ⟨[5] ++ rest⟩ s = (none, (f.DecodeValue ⟨[5]⟩ s).2.1, ⟨rest⟩)
    | none => ∀ rest : List Byte, ∃ x : Value,
        fixintDecodeValue ⟨"interface", Kind.Interface⟩ ⟨[5] ++ rest⟩ = (x, none, ⟨rest⟩)
  rw [sampleFields_lookup_A]
  intro s rest
  rfl

theorem sampleEntryX_wf :
    WellFormedEntry sampleFields markedDecodeString
      (fixintDecodeValue ⟨"interface", Kind.Interface⟩) sampleEntryX := by
  refine ⟨fun rest => by simp [sampleEntryX, markedDecodeString, markedParse_markedBytes], ?_⟩
  show match sampleFields.lookup [0x58] with
    | some f => ∀ (s : SampleRecord) (rest : List Byte),
        f.DecodeValue ⟨[9] ++ rest⟩ s = (none, (f.DecodeValue ⟨[9]⟩ s).2.1, ⟨rest⟩)
    | none => ∀ rest : List Byte, ∃ x : Value,
        fixintDecodeValue ⟨"interface", Kind.Interface⟩ ⟨[9] ++ rest⟩ = (x, none, ⟨rest⟩)
  rw [sampleFields_lookup_X]
  intro rest
  exact ⟨Value.int 9, rfl⟩

/-- Witness of C12: the payload with the known entry `"A": 5` and the unknown entry
`"X": 9`, followed by the byte `07`, decoded into the record `A = 0, B = 9`. -/
theorem structValue_forward_compatible_witness :
    Decoder.structValue sampleFields markedDecodeString
        (fixintDecodeValue ⟨"interface", Kind.Interface⟩)
        ⟨[0x82] ++ entryBytes [sampleEntryA, sampleEntryX] ++ [7]⟩ (⟨0, 9⟩ : SampleRecord)
      = (none, applyEntries sampleFields [sampleEntryA, sampleEntryX] ⟨0, 9⟩, ⟨[7]⟩) ∧
    Decoder.structValue sampleFields markedDecodeString
        (fixintDecodeValue ⟨"interface", Kind.Interface⟩)
        ⟨[0x81] ++ entryBytes ([sampleEntryA, sampleEntryX].filter (isKnown sampleFields))
          ++ [7]⟩ (⟨0, 9⟩ : SampleRecord)
      = (none, applyEntries sampleFields [sampleEntryA, sampleEntryX] ⟨0, 9⟩, ⟨[7]⟩) ∧
    (∀ name : GoString, (∀ en ∈ [sampleEntryA, sampleEntryX], en.name ≠ name) →
      sampleGet name (applyEntries sampleFields [sampleEntryA, sampleEntryX] ⟨0, 9⟩)
        = sampleGet name ⟨0, 9⟩) :=
  structValue_forward_compatible sampleFields markedDecodeString
    (fixintDecodeValue ⟨"interface", Kind.Interface⟩) sampleGet sample_frame
    [0x82] [sampleEntryA, sampleEntryX] (Or.inl ⟨by decide, by decide⟩)
    (fun en hen => by
      rcases List.mem_cons.mp hen with rfl | hen
      · exact sampleEntryA_wf
      · rcases List.mem_cons.mp hen with rfl | hen
        · exact sampleEntryX_wf
        · exact absurd hen (List.not_mem_nil _))
    [0x81] (Or.inl ⟨by decide, by decide⟩) ⟨0, 9⟩ [7]

theorem structValueLoop_pairBytes {S V : Type}
    (fields : Finmap (fun _ : GoString => field S))
    (DecodeString : Decoder → GoString × Option Error × Decoder)
    (DecodeInterface : Decoder → Value × Option Error × Decoder)
    (sb : GoString → List Byte) (fb : GoString → S → List Byte) (get : GoString → S → V)
    (hDS : ReadsString DecodeString sb) (hDF : ReadsFields fields fb get) (r : S)
    (kept : List (Sigma fun _ : GoString => field S))
    (hk : ∀ p ∈ kept, fields.lookup p.1 = some p.2) (s : S) (rest : List Byte) :
    ∃ t : S,
      Decoder.structValueLoop fields DecodeString DecodeInterface kept.length s
          ⟨pairBytes sb fb r kept ++ rest⟩ = (none, t, ⟨rest⟩) ∧
      ∀ name : GoString,
        (name ∈ kept.keys → get name t = get name r) ∧
        (name ∉ kept.keys → get name t = get name s) := by
  induction kept generalizing s with
  | nil =>
    refine ⟨s, rfl, fun name => ⟨fun h => absurd h (List.not_mem_nil _), fun _ => rfl⟩⟩
  | cons p ps ih =>
    obtain ⟨name0, f⟩ := p
    have hl : fields.lookup name0 = some f := hk ⟨name0, f⟩ (List.mem_cons_self _ _)
    obtain ⟨s1, hdec, hown, hother⟩ := hDF name0 f hl r s (pairBytes sb fb r ps ++ rest)
    obtain ⟨t, hrun, hget⟩ := ih (fun q hq => hk q (List.mem_cons_of_mem _ hq)) s1
    refine ⟨t, ?_, ?_⟩
    · have hb : pairBytes sb fb r (⟨name0, f⟩ :: ps) ++ rest
          = sb name0 ++ (fb name0 r ++ (pairBytes sb fb r ps ++ rest)) := by
        simp [pairBytes, List.append_assoc]
      rw [hb]
      simp only [List.length_cons, Decoder.structValueLoop, hDS name0, hl, hdec, hrun]
    · intro name
      by_cases hin : name ∈ ps.keys
      · refine ⟨fun _ => (hget name).1 hin, fun hnot => ?_⟩
        exact absurd (List.mem_cons_of_mem _ hin) hnot
      · by_cases hn : name = name0
        · subst hn
          refine ⟨fun _ => ?_, fun hnot => absurd (List.mem_cons_self _ _) hnot⟩
          rw [(hget name).2 hin, hown]
        · refine ⟨fun hmem => ?_, fun _ => ?_⟩
          · rcases List.mem_cons.mp hmem with h | h
            · exact absurd h hn
            · exact absurd h hin
          · rw [(hget name).2 hin, hother name hn]

/-- C13: when `DecodeString` undoes `EncodeString` and every field's bound decode
function undoes its bound encode function, for a record type with fewer than `2^32`
fields `encodeStruct(r)` on a working stream writes the map length and the pairs of
exactly the fields not omitted for `r` (no pair of an omitted field), and `structValue`
applied to these bytes and a destination `r0` succeeds, consumes exactly these bytes,
and yields a record that agrees with `r` on every field not omitted for `r` and with
`r0` on every field omitted for `r`. -/
theorem structValue_encodeStruct {S V : Type}
    (EncodeString : Encoder → GoString → Option Error × Encoder)
    (DecodeString : Decoder → GoString × Option Error × Decoder)
    (DecodeInterface : Decoder → Value × Option Error × Decoder)
    (sb : GoString → List Byte) (fb : GoString → S → List Byte) (get : GoString → S → V)
    (fields : Finmap (fun _ : GoString => field S))
    (hES : WritesString EncodeString sb) (hDS : ReadsString DecodeString sb)
    (hEF : WritesFields fields fb) (hDF : ReadsFields fields fb get)
    (hcard : Multiset.card fields.entries < 2 ^ 32)
    (e : Encoder) (he : e.werr = none) (r r0 : S)
    (order1 order2 : List (Sigma fun _ : GoString => field S))
    (h1 : IsFieldOrder fields order1) (h2 : IsFieldOrder fields order2) :
    ∃ bs : List Byte,
      Encoder.encodeStruct EncodeString e r order1 order2 = (none, ⟨e.w ++ bs, none⟩) ∧
      bs = mapLenBytes (keptFields r order2).length
        ++ pairBytes sb fb r (keptFields r order2) ∧
      (∀ p ∈ keptFields r order2, p.2.Omit r = false) ∧
      ∀ rest : List Byte, ∃ t : S,
        Decoder.structValue fields DecodeString DecodeInterface ⟨bs ++ rest⟩ r0
          = (none, t, ⟨rest⟩) ∧
        ∀ (name : GoString) (f : field S), fields.lookup name = some f →
          get name t = if f.Omit r then get name r0 else get name r := by
  have hkmem : ∀ (name : GoString) (f : field S),
      (⟨name, f⟩ : Sigma fun _ : GoString => field S) ∈ keptFields r order2
        ↔ fields.lookup name = some f ∧ f.Omit r = false := by
    intro name f
    unfold keptFields
    rw [List.mem_filter, mem_fieldOrder fields order2 h2]
    simp
  refine ⟨_, ?_, rfl, ?_, ?_⟩
  · rw [encodeStruct_eq EncodeString sb fb fields hES hEF e he r order1 order2 h1 h2,
      List.append_assoc]
  · rintro ⟨name, f⟩ hp
    exact ((hkmem name f).mp hp).2
  · intro rest
    have hlen : ((keptFields r order2).length : Int) < 2 ^ 32 := by
      have hle : (keptFields r order2).length ≤ order2.length := List.length_filter_le _ _
      have hc : order2.length = Multiset.card fields.entries := by
        rw [← Multiset.coe_card, h2]
      have : ((2 : Int) ^ 32) = ((2 ^ 32 : Nat) : Int) := by norm_num
      rw [this]
      exact_mod_cast (by omega : (keptFields r order2).length < 2 ^ 32)
    obtain ⟨t, hrun, hget⟩ := structValueLoop_pairBytes fields DecodeString DecodeInterface
      sb fb get hDS hDF r (keptFields r order2)
      (fun p hp => by
        obtain ⟨name, f⟩ := p
        exact ((hkmem name f).mp hp).1) r0 rest
    refine ⟨t, ?_, ?_⟩
    · unfold Decoder.structValue
      rw [List.append_assoc, DecodeMapLen_mapLenBytes (Int.ofNat_nonneg _) hlen]
      simp only [Int.toNat_ofNat]
      exact hrun
    · intro name f hl
      by_cases ho : f.Omit r = true
      · rw [if_pos ho]
        apply (hget name).2
        intro hin
        obtain ⟨f1, hf1⟩ := List.exists_of_mem_keys hin
        obtain ⟨hl1, ho1⟩ := (hkmem name f1).mp hf1
        rw [hl] at hl1
        rw [Option.some.inj hl1] at ho
        rw [ho1] at ho
        exact absurd ho (by decide)
      · rw [if_neg ho]
        apply (hget name).1
        simp only [Bool.not_eq_true] at ho
        exact List.mem_keys_of_mem ((hkmem name f).mpr ⟨hl, ho⟩)

theorem marked_reads : ReadsString markedDecodeString markedBytes := by
  intro s rest
  simp [markedDecodeString, markedParse_markedBytes]

theorem sample_reads : ReadsFields sampleFields sampleFieldBytes sampleGet := by
  intro name f h r s rest
  rcases sampleFields_lookup name f h with ⟨rfl, rfl⟩ | ⟨rfl, rfl⟩
  · refine ⟨{ s with A := r.A }, rfl, rfl, ?_⟩
    intro other hne
    simp [sampleGet, hne]
  · refine ⟨{ s with B := r.B }, rfl, rfl, ?_⟩
    intro other hne
    by_cases ha : other = [0x41]
    · simp [sampleGet, ha]
    · simp [sampleGet, ha, hne]

theorem sampleFields_card : Multiset.card sampleFields.entries < 2 ^ 32 := by
  rw [← sample_order_BA, Multiset.coe_card]
  decide

/-- Witness of C13: the sample record `A = 5, B = 0` (so `B` is omitted) encoded and
decoded into the record `A = 1, B = 2`. -/
theorem structValue_encodeStruct_witness :
    ∃ bs : List Byte,
      Encoder.encodeStruct markedEncodeString ⟨[], none⟩ (⟨5, 0⟩ : SampleRecord)
          [⟨[0x41], fieldA⟩, ⟨[0x42], fieldB⟩] [⟨[0x42], fieldB⟩, ⟨[0x41], fieldA⟩]
        = (none, ⟨[] ++ bs, none⟩) ∧
      bs = mapLenBytes (keptFields (⟨5, 0⟩ : SampleRecord)
            [⟨[0x42], fieldB⟩, ⟨[0x41], fieldA⟩]).length
        ++ pairBytes markedBytes sampleFieldBytes (⟨5, 0⟩ : SampleRecord)
            (keptFields (⟨5, 0⟩ : SampleRecord) [⟨[0x42], fieldB⟩, ⟨[0x41], fieldA⟩]) ∧
      (∀ p ∈ keptFields (⟨5, 0⟩ : SampleRecord) [⟨[0x42], fieldB⟩, ⟨[0x41], fieldA⟩],
        p.2.Omit (⟨5, 0⟩ : SampleRecord) = false) ∧
      ∀ rest : List Byte, ∃ t : SampleRecord,
        Decoder.structValue sampleFields markedDecodeString
            (fixintDecodeValue ⟨"interface", Kind.Interface⟩) ⟨bs ++ rest⟩ ⟨1, 2⟩
          = (none, t, ⟨rest⟩) ∧
        ∀ (name : GoString) (f : field SampleRecord), sampleFields.lookup name = some f →
          sampleGet name t
            = if f.Omit (⟨5, 0⟩ : SampleRecord) then sampleGet name ⟨1, 2⟩
              else sampleGet name ⟨5, 0⟩ :=
  structValue_encodeStruct markedEncodeString markedDecodeString
    (fixintDecodeValue ⟨"interface", Kind.Interface⟩) markedBytes sampleFieldBytes sampleGet
    sampleFields marked_writes marked_reads sample_writes sample_reads sampleFields_card
    ⟨[], none⟩ rfl ⟨5, 0⟩ ⟨1, 2⟩
    [⟨[0x41], fieldA⟩, ⟨[0x42], fieldB⟩] [⟨[0x42], fieldB⟩, ⟨[0x41], fieldA⟩]
    sample_order_AB sample_order_BA

theorem structValue_encodeStruct_sample :
    Decoder.structValue sampleFields markedDecodeString
        (fixintDecodeValue ⟨"interface", Kind.Interface⟩)
        ⟨[0x81, 1, 0x41, 0, 5]⟩ (⟨1, 2⟩ : SampleRecord)
      = (none, ⟨5, 2⟩, ⟨[]⟩) := by
  decide

end Msgpack
